import Mathlib

/-!
# Verification of the go-shdep shared-object store and update propagation tree

This file gives a shallow embedding of the core of the `go-shdep` library:

* `utils.StableTopologicalSortWithSortedKeys` (Kahn's algorithm with a
  stability list),
* `objstore.GenericStore` (`Register`, `Init` with dependency collection),
* `updtree.EventsPullStorage` / `EventPuller` (the pull event buffer),
* `updtree.NodeBase` (`NotifyUpdated` / `processUpdate`, the propagation pass),

and proves or refutes the specified properties of these components.

Modelling conventions:

* Go object identifiers, object addresses (pointers) and runtime type tags are
  all modelled as `Nat`.  Pointer equality of shared instances is equality of
  addresses.
* Go maps are modelled as association lists in insertion order.  Where Go
  iterates a map in unspecified order (`maps.Keys`), the model uses the
  insertion order; every claim proved below is either insensitive to that
  order (singleton edge lists, sorted stability lists) or quantifies over the
  relevant data.
* Go `int` counters that may become negative (`inDegree`) are modelled as
  `Int`; counters that stay non-negative are `Nat`.
* Loops without a structural termination measure take a fuel argument and
  return `none` when it runs out; the concrete fuel used by the embedding is
  proved (or evaluated) to be sufficient wherever a theorem depends on it.
* Functions that can panic in Go (`Register` on a type mismatch,
  `getEvents` on an out-of-range index, `processUpdate` on a failed sort)
  return `Option`/`Except` with `none`/`.error` for the panic.
-/

namespace Shdep

instance {ε α : Type} [DecidableEq ε] [DecidableEq α] : DecidableEq (Except ε α) :=
  fun a b =>
    match a, b with
    | .error e1, .error e2 =>
      if h : e1 = e2 then isTrue (by rw [h]) else isFalse (fun hc => h (Except.error.inj hc))
    | .ok v1, .ok v2 =>
      if h : v1 = v2 then isTrue (by rw [h]) else isFalse (fun hc => h (Except.ok.inj hc))
    | .error _, .ok _ => isFalse (fun hc => Except.noConfusion hc)
    | .ok _, .error _ => isFalse (fun hc => Except.noConfusion hc)

/-! ## Small helpers -/

/-- Insert a key into a Go `map[K]struct{}` modelled as a duplicate-free list
in insertion order. -/
def insertIfAbsent (l : List Nat) (k : Nat) : List Nat :=
  if k ∈ l then l else l ++ [k]

/-- Keys of an association list (a Go map in insertion order). -/
def keysOf (g : List (Nat × List Nat)) : List Nat := g.map Prod.fst

/-- Lookup in an association list modelling `map[K]V`; `none` if absent. -/
def lookupVal (m : List (Nat × Nat)) (k : Nat) : Option Nat :=
  (m.find? (fun e => e.1 == k)).map Prod.snd

/-- Adjacency lookup: Go's `graph[key]` with the `nil` default for a missing
key. -/
def lookupAdj (g : List (Nat × List Nat)) (k : Nat) : List Nat :=
  ((g.find? (fun e => e.1 == k)).map Prod.snd).getD []

/-! ## `utils.StableTopologicalSortWithSortedKeys`

The in-degree counter is a Go `map[Key]int`: lookups of missing keys yield
`0`, and the stored values are signed (the Go code decrements counters of
already-emitted vertices below zero). -/

/-- Add `δ` to the entry of `k` in an association-list counter map,
inserting the entry if it is absent (Go `inDegree[k] += δ`). -/
def bump (d : List (Nat × Int)) (k : Nat) (δ : Int) : List (Nat × Int) :=
  match d with
  | [] => [(k, δ)]
  | (k', v) :: rest => if k = k' then (k', v + δ) :: rest else (k', v) :: bump rest k δ

/-- Counter-map lookup with Go's zero default. -/
def dget (d : List (Nat × Int)) (k : Nat) : Int :=
  ((d.find? (fun e => e.1 == k)).map Prod.snd).getD 0

/-- Number of strictly positive entries of a counter map (used only for the
fuel bound of the Kahn loop). -/
def posCount (d : List (Nat × Int)) : Nat :=
  (d.filter (fun e => 0 < e.2)).length

/-- Initial in-degrees: `for key in sortedKeys { for dep in graph[key] {
inDegree[dep]++ } }`. -/
def initInDeg (adj : Nat → List Nat) (sortedKeys : List Nat) : List (Nat × Int) :=
  sortedKeys.foldl (fun d key => (adj key).foldl (fun d dep => bump d dep 1) d) []

/-- One pop of Kahn's loop body: decrement the in-degree of every neighbour,
appending a neighbour to the queue when its counter reaches exactly `0`. -/
def processNeighbors : List Nat → List Nat → List (Nat × Int) → List Nat × List (Nat × Int)
  | [], q, d => (q, d)
  | v :: vs, q, d =>
    let d' := bump d v (-1)
    let q' := if dget d' v = 0 then q ++ [v] else q
    processNeighbors vs q' d'

/-- Kahn's main loop.  Each iteration pops the queue head, appends it to the
result and releases its neighbours.  The fuel only bounds the number of
iterations; `kahnLoop_isSome` below shows the fuel chosen by
`StableTopologicalSortWithSortedKeys` can never run out, so the `none`
branch is unreachable from the sorter. -/
def kahnLoop (adj : Nat → List Nat) : Nat → List Nat → List Nat → List (Nat × Int) →
    Option (List Nat)
  | _, [], result, _ => some result
  | 0, _ :: _, _, _ => none
  | fuel + 1, node :: rest, result, d =>
    let step := processNeighbors (adj node) rest d
    kahnLoop adj fuel step.1 (result ++ [node]) step.2

inductive SortErr where
  | wrongSortedKeys
  | cyclicDependencies
  | outOfFuel
  deriving DecidableEq, Repr

/-- `utils.StableTopologicalSortWithSortedKeys`: Kahn's algorithm seeded and
consumed in stability-list order (FIFO queue).  Returns
`.error .wrongSortedKeys` when the stability list and the graph differ in
size, and `.error .cyclicDependencies` when not all vertices could be
emitted. -/
def StableTopologicalSortWithSortedKeys (graph : List (Nat × List Nat)) (sortedKeys : List Nat) :
    Except SortErr (List Nat) :=
  if sortedKeys.length ≠ graph.length then .error .wrongSortedKeys
  else
    let adj := lookupAdj graph
    let d0 := initInDeg adj sortedKeys
    let q0 := sortedKeys.filter (fun v => dget d0 v = 0)
    match kahnLoop adj (q0.length + posCount d0 + 1) q0 [] d0 with
    | none => .error .outOfFuel
    | some result =>
      if result.length ≠ graph.length then .error .cyclicDependencies else .ok result

/-- Edge relation of a dependency graph: `u` points at (depends on) `v`. -/
def EdgeOf (g : List (Nat × List Nat)) (u v : Nat) : Prop :=
  v ∈ lookupAdj g u

instance (g : List (Nat × List Nat)) (u v : Nat) : Decidable (EdgeOf g u v) := by
  unfold EdgeOf; infer_instance

/-- Reachability through one or more `EdgeOf` steps. -/
def ReachOf (g : List (Nat × List Nat)) : Nat → Nat → Prop :=
  Relation.TransGen (EdgeOf g)

/-- A graph is acyclic when no vertex reaches itself through at least one
edge. -/
def AcyclicGraph (g : List (Nat × List Nat)) : Prop :=
  ∀ v, ¬ ReachOf g v v

/-- A graph is closed when every listed dependency is itself a vertex. -/
def ClosedGraph (g : List (Nat × List Nat)) : Prop :=
  ∀ e ∈ g, ∀ v ∈ e.2, v ∈ keysOf g

instance (g : List (Nat × List Nat)) : Decidable (ClosedGraph g) := by
  unfold ClosedGraph; infer_instance

/-! ## `updtree.EventsPullStorage` and `updtree.EventPuller`

Event payloads are modelled as `Nat`.  A buffered slot is a pair
`(payload, readTimes)`.  A puller is represented by its cursor (its `acc`
field always points at the storage it came from, which the model passes
explicitly). -/

structure EventsPullStorage where
  eventsPushed : Nat
  events : List (Nat × Nat)
  pullersCount : Nat
  deriving DecidableEq, Repr

def EventsPullStorage.empty : EventsPullStorage := ⟨0, [], 0⟩

/-- `NewPuller`: increments the puller count and returns the new puller's
cursor.  The Go constructor leaves the cursor zero-initialised. -/
def NewPuller (a : EventsPullStorage) : EventsPullStorage × Nat :=
  ({ a with pullersCount := a.pullersCount + 1 }, 0)

/-- `Publish`: discards the event when no puller is registered, otherwise
appends a slot with read count `0` and increments the total-pushed
counter. -/
def Publish (a : EventsPullStorage) (evt : Nat) : EventsPullStorage :=
  if a.pullersCount = 0 then a
  else { a with
    eventsPushed := a.eventsPushed + 1
    events := a.events ++ [(evt, 0)] }

/-- Length of the maximal buffer prefix whose slots have been read by every
registered puller (the erase loop of `getEvents`). -/
def erasableCount : List (Nat × Nat) → Nat → Nat
  | [], _ => 0
  | e :: rest, c => if e.2 = c then erasableCount rest c + 1 else 0

/-- `getEvents`: return the slots the cursor has not seen, increment their
read counts in place, then garbage-collect the fully-read prefix.  The Go
index arithmetic is on `int`; a negative or out-of-range slice index panics,
modelled as `none`. -/
def getEvents (a : EventsPullStorage) («from» : Nat) :
    Option (List (Nat × Nat) × EventsPullStorage) :=
  let countToPull : Int := (a.eventsPushed : Int) - («from» : Int)
  if countToPull = 0 then some ([], a)
  else
    let firstEvtIdx : Int := (a.events.length : Int) - countToPull
    if firstEvtIdx < 0 ∨ (a.events.length : Int) < firstEvtIdx then none
    else
      let idx := firstEvtIdx.toNat
      let pulled := (a.events.drop idx).map (fun e => (e.1, e.2 + 1))
      let events' := a.events.take idx ++ pulled
      let countToErase := erasableCount events' a.pullersCount
      some (pulled, { a with events := events'.drop countToErase })

/-- `EventPuller.Pull` for a puller with the given cursor: returns the pulled
payloads, the updated storage and the advanced cursor. -/
def Pull (a : EventsPullStorage) (cursor : Nat) :
    Option (List Nat × EventsPullStorage × Nat) :=
  match getEvents a cursor with
  | none => none
  | some (events, a') =>
    if events.length = 0 then some ([], a', cursor)
    else some (events.map Prod.fst, a', cursor + events.length)

/-- `EventsPullStorage.Len` / `BufferSize`. -/
def BufferSize (a : EventsPullStorage) : Nat := a.events.length

/-! ## `objstore.GenericStore`

Objects live at addresses (`Nat`); `ObjEnv` supplies the parts of the Go
runtime the store consults: the `getID` callback, the dynamic type of each
object and Go's reflective type-assignability check. -/

structure ObjEnv where
  getID : Nat → Nat
  typeOf : Nat → Nat
  assignable : Nat → Nat → Bool

/-- The mutable fields of `GenericStore` used by `Register` and `Init`.
`objects` is the canonical map `ID ↦ address` (association list in insertion
order, which is also the registration order of the adopted objects). -/
structure StoreState where
  objects : List (Nat × Nat)
  objectsRegistrationOrder : List Nat
  topLevelDependencies : List Nat
  recentlyRegisteredSharedObjects : List Nat
  dependencies : List Nat
  initializationOrder : List Nat
  deriving DecidableEq, Repr

def StoreState.empty : StoreState := ⟨[], [], [], [], [], []⟩

/-- `GenericStore.Register`: record the ID in the pending-dependency set and
the recently-registered queue; adopt the object when its ID is new, otherwise
redirect the caller's slot to the existing canonical object after the
type-compatibility check (`none` models the panic on a type mismatch).  The
returned address is the content of the caller's slot when the call
returns. -/
def Register (env : ObjEnv) (s : StoreState) (obj : Nat) : Option (StoreState × Nat) :=
  let objID := env.getID obj
  let s := { s with
    dependencies := insertIfAbsent s.dependencies objID
    recentlyRegisteredSharedObjects := s.recentlyRegisteredSharedObjects ++ [objID] }
  match lookupVal s.objects objID with
  | some existing =>
    if env.assignable (env.typeOf existing) (env.typeOf obj) then some (s, existing)
    else none
  | none =>
    some ({ s with
      objects := s.objects ++ [(objID, obj)]
      objectsRegistrationOrder := s.objectsRegistrationOrder ++ [objID] }, obj)

/-- Effect of one object's `RegisterDependencies` callback: register each of
the child addresses `regDeps obj` in order. -/
def gatherOne (env : ObjEnv) (regDeps : Nat → List Nat) (s : StoreState) (obj : Nat) :
    Option StoreState :=
  (regDeps obj).foldlM (fun s c => (Register env s c).map Prod.fst) s

/-- The loop of `GenericStore.collectDependencies` over a snapshotted
pending set: process each pending ID that is not yet in the graph by calling
its object's `RegisterDependencies`, recording the repopulated pending set as
its adjacency list and recursing into it (after clearing the pending set
again), then continue with the rest.  The fuel (a step budget consumed by
every call, standing in for Go's unbounded recursion) returns `none` when
exhausted. -/
def collectLoop (env : ObjEnv) (regDeps : Nat → List Nat) :
    Nat → List Nat → StoreState → List (Nat × List Nat) →
    Option (StoreState × List (Nat × List Nat))
  | _, [], s, graph => some (s, graph)
  | 0, _ :: _, _, _ => none
  | fuel + 1, objID :: rest, s, graph =>
    if objID ∈ keysOf graph then collectLoop env regDeps fuel rest s graph
    else
      match lookupVal s.objects objID with
      | none => none
      | some obj =>
        match gatherOne env regDeps s obj with
        | none => none
        | some s1 =>
          match collectLoop env regDeps fuel s1.dependencies { s1 with dependencies := [] }
              (graph ++ [(objID, s1.dependencies)]) with
          | none => none
          | some (s2, graph2) => collectLoop env regDeps fuel rest s2 graph2

/-- `GenericStore.collectDependencies`: snapshot and clear the pending set,
then run the loop. -/
def collectDependencies (env : ObjEnv) (regDeps : Nat → List Nat) (fuel : Nat)
    (s : StoreState) (graph : List (Nat × List Nat)) :
    Option (StoreState × List (Nat × List Nat)) :=
  collectLoop env regDeps fuel s.dependencies { s with dependencies := [] } graph

/-- Insertion into a list sorted by the strict order `lt` (used to model
Go's `sort.Slice`; `idLess` callbacks are strict total orders, for which any
comparison sort produces this unique result). -/
def insertSorted (lt : Nat → Nat → Bool) (x : Nat) : List Nat → List Nat
  | [] => [x]
  | y :: ys => if lt x y then x :: y :: ys else y :: insertSorted lt x ys

/-- Sort a list by the strict order `lt`. -/
def sortByLess (lt : Nat → Nat → Bool) (l : List Nat) : List Nat :=
  l.foldr (insertSorted lt) []

inductive InitErr where
  | alreadyInitialized
  | assertFailed
  | outOfFuel
  | sortFailed (e : SortErr)
  deriving DecidableEq, Repr

/-- The stability list of `Init`: the object IDs sorted by `idLess` when one
is configured (`maps.Keys` then `sort.Slice`), the registration order
otherwise. -/
def stabilityOf (idLess : Option (Nat → Nat → Bool)) (s : StoreState) : List Nat :=
  match idLess with
  | some lt => sortByLess lt (s.objects.map Prod.fst)
  | none => s.objectsRegistrationOrder

/-- `GenericStore.Init`: refuse a second initialization (non-empty top-level
list), snapshot the pending set as the top-level dependencies, collect the
dependency graph, assert it covers every object, build the stability list
(sorted object IDs when `idLess` is given, registration order otherwise),
topologically sort, reverse, and run the per-object `Init` hooks in that
order.  The second component is the sequence of IDs whose `Init` hook was
invoked (the model has no failing user hooks, so on success it equals the
initialization order and on an earlier error it is empty). -/
def StoreInit (env : ObjEnv) (regDeps : Nat → List Nat)
    (idLess : Option (Nat → Nat → Bool)) (fuel : Nat) (s : StoreState) :
    Except InitErr StoreState × List Nat :=
  if !s.topLevelDependencies.isEmpty then (.error .alreadyInitialized, [])
  else
    let s := { s with topLevelDependencies := s.dependencies }
    match collectDependencies env regDeps fuel s [] with
    | none => (.error .outOfFuel, [])
    | some (s, graph) =>
      if graph.length ≠ s.objects.length then (.error .assertFailed, [])
      else
        match StableTopologicalSortWithSortedKeys graph (stabilityOf idLess s) with
        | .error e => (.error (.sortFailed e), [])
        | .ok sorted =>
          let initializationOrder := sorted.reverse
          (.ok { s with initializationOrder := initializationOrder }, initializationOrder)

/-! ## `updtree.NodeBase`

Nodes are `Nat`.  The static shape of the tree is the subscriber function
`subs : Nat → List Nat` (`NodeBase.subscribers`, in subscription order).
Handlers are modelled by their visible effect on the tree: `targets m` is the
list of nodes on which node `m`'s handler calls `NotifyUpdated`, in order
(`[]` covers both an absent handler and a handler that does not notify; the
handler-invocation log below records every node whose `subscriptionUpdated`
flag was set when the sweep visited it, which for nodes with handlers is
exactly the sequence of handler invocations). -/

structure TreeState where
  flag : Nat → Bool
  updated : Nat → Bool
  cache : Nat → Option (List Nat)
  log : List Nat

/-- The all-clear tree state: no transient flags, no cached orders. -/
def TreeState.fresh : TreeState := ⟨fun _ => false, fun _ => false, fun _ => none, []⟩

def setFlag (st : TreeState) (m : Nat) (v : Bool) : TreeState :=
  { st with flag := fun x => if x = m then v else st.flag x }

def setUpdated (st : TreeState) (m : Nat) (v : Bool) : TreeState :=
  { st with updated := fun x => if x = m then v else st.updated x }

/-- `NodeBase.notifySubscribers`: set the `subscriptionUpdated` flag of every
direct subscriber. -/
def notifySubscribers (subs : Nat → List Nat) (n : Nat) (st : TreeState) : TreeState :=
  (subs n).foldl (fun st m => setFlag st m true) st

/-- `NodeBase.getDependencies`: depth-first pre-order walk appending
`(node, node.subscribers)` at every visit and recursing into every
subscriber before continuing (the walk has no visited check, so diamond
shapes yield repeated entries).  The recursion is phrased with an explicit
worklist, which produces the same entry sequence; the fuel bounds the number
of visits, and `none` models non-termination on a cyclic subscription
graph. -/
def getDepsWalk (subs : Nat → List Nat) : Nat → List Nat → List (Nat × List Nat) →
    Option (List (Nat × List Nat))
  | _, [], dest => some dest
  | 0, _ :: _, _ => none
  | fuel + 1, n :: rest, dest =>
    getDepsWalk subs fuel (subs n ++ rest) (dest ++ [(n, subs n)])

/-- Modelled from the spec: `utils.Uniq` (whose source is not in the
repository snapshot) deduplicates the stability list produced by the
pre-order walk, "tie-break by walk order, deduplicated" — keep the first
occurrence of each element, preserving order. -/
def Uniq (l : List Nat) : List Nat := l.foldl insertIfAbsent []

/-- Build `dependenciesMap` from the walk entries.  The Go code writes
`dependenciesMap[entry.Node] = entry.Dependants` for every entry; repeated
entries for one node carry the same subscriber list, so keeping the first
occurrence of each key reproduces the resulting map. -/
def dedupKeys (l : List (Nat × List Nat)) : List (Nat × List Nat) :=
  l.foldl (fun acc e => if e.1 ∈ keysOf acc then acc else acc ++ [e]) []

/-- `NodeBase.getUpdateOrder`: walk the transitive downstream set, build the
stability list (walk order, deduplicated) and the dependency map, and run the
stable topological sort. -/
def getUpdateOrder (subs : Nat → List Nat) (fuel : Nat) (n : Nat) :
    Option (List Nat) :=
  match getDepsWalk subs fuel [n] [] with
  | none => none
  | some deps =>
    let stability := Uniq (deps.map Prod.fst)
    let graph := dedupKeys deps
    match StableTopologicalSortWithSortedKeys graph stability with
    | .error _ => none
    | .ok order => some order

/-- The four mutually recursive pieces of a propagation pass, tagged so the
pass can be run by one fuel-structural executor:

* `.notify n` — `NodeBase.NotifyUpdated` on node `n`;
* `.process n` — `NodeBase.processUpdate` on node `n`;
* `.sweepC order` — the handler sweep of `processUpdate` over (a suffix of)
  the cached order;
* `.targetsC ts` — the body of a handler, calling `NotifyUpdated` on each of
  its remaining targets. -/
inductive Call where
  | notify (n : Nat)
  | process (n : Nat)
  | sweepC (order : List Nat)
  | targetsC (ts : List Nat)

/-- Executor of a propagation pass.  Every recursive call consumes one unit
of fuel (standing in for Go's unbounded recursion); `none` models fuel
exhaustion and the panic of `processUpdate` on a failed topological sort.

* `NotifyUpdated`: set the node's `updated` flag, flag every direct
  subscriber, and return early when the node's own `subscriptionUpdated`
  flag is set (it lies inside a running pass); otherwise run
  `processUpdate`.
* `processUpdate`: obtain the cached update order (computing and caching it
  on first use), sweep it, then walk it again clearing the `updated` flags.
* sweep: for each node of the order in turn, invoke its handler when its
  `subscriptionUpdated` flag is set (recording the invocation in the log),
  then clear the flag.
* handler: call `NotifyUpdated` on each target in order. -/
def exec (subs targets : Nat → List Nat) : Nat → Call → TreeState → Option TreeState
  | 0, _, _ => none
  | fuel + 1, .notify n, st =>
    let st := setUpdated st n true
    let st := notifySubscribers subs n st
    if st.flag n then some st
    else exec subs targets fuel (.process n) st
  | fuel + 1, .process n, st =>
    let cached :=
      match st.cache n with
      | some order => some (order, st)
      | none =>
        match getUpdateOrder subs (fuel + 1) n with
        | none => none
        | some order =>
          some (order, { st with cache := fun x => if x = n then some order else st.cache x })
    match cached with
    | none => none
    | some (order, st) =>
      match exec subs targets fuel (.sweepC order) st with
      | none => none
      | some st => some (order.foldl (fun st m => setUpdated st m false) st)
  | _ + 1, .sweepC [], st => some st
  | fuel + 1, .sweepC (m :: rest), st =>
    let step :=
      if st.flag m then
        exec subs targets fuel (.targetsC (targets m)) { st with log := st.log ++ [m] }
      else some st
    match step with
    | none => none
    | some st => exec subs targets fuel (.sweepC rest) (setFlag st m false)
  | _ + 1, .targetsC [], st => some st
  | fuel + 1, .targetsC (t :: ts), st =>
    match exec subs targets fuel (.notify t) st with
    | none => none
    | some st => exec subs targets fuel (.targetsC ts) st

/-- `NodeBase.NotifyUpdated`, the entry point of a propagation pass. -/
def notifyUpd (subs targets : Nat → List Nat) (fuel : Nat) (n : Nat) (st : TreeState) :
    Option TreeState :=
  exec subs targets fuel (.notify n) st

/-! ## Whole-system states of one pull buffer with its pullers

`pullers` is the list of the registered pullers' cursors in creation order.
`log` is a history variable: the payloads of all events that were actually
buffered (those counted by `eventsPushed`). -/

structure Sys where
  store : EventsPullStorage
  pullers : List Nat
  log : List Nat
  deriving DecidableEq, Repr

def Sys.empty : Sys := ⟨EventsPullStorage.empty, [], []⟩

/-- Cursor of the slowest registered puller (`dflt` when none is
registered). -/
def minCursor (pullers : List Nat) (dflt : Nat) : Nat :=
  pullers.foldr min dflt

/-- Number of registered pullers that have already read the slot with
lifetime index `g`. -/
def readersCount (pullers : List Nat) (g : Nat) : Nat :=
  (pullers.filter (fun c => g < c)).length

/-- The slot with lifetime index `g` is still retained in the buffer. -/
def Retained (s : Sys) (g : Nat) : Prop :=
  s.store.eventsPushed - s.store.events.length ≤ g ∧ g < s.store.eventsPushed

instance (s : Sys) (g : Nat) : Decidable (Retained s g) := by
  unfold Retained; infer_instance

/-- States of one buffer reachable by `NewPuller`, `Publish` and `Pull`,
restricted to runs in which a puller is only ever created while no buffer
slot has been reclaimed yet (`events.length = eventsPushed`; in particular
any run whose pullers are all created before the first `Publish`). -/
inductive ReachPre : Sys → Prop where
  | init : ReachPre Sys.empty
  | newPuller {s : Sys} : ReachPre s →
      s.store.events.length = s.store.eventsPushed →
      ReachPre ⟨(NewPuller s.store).1, s.pullers ++ [(NewPuller s.store).2], s.log⟩
  | publish {s : Sys} (e : Nat) : ReachPre s →
      ReachPre ⟨Publish s.store e, s.pullers,
        if s.store.pullersCount = 0 then s.log else s.log ++ [e]⟩
  | pull {s : Sys} {evts : List Nat} {a : EventsPullStorage} {c : Nat}
      (i : Nat) (h : i < s.pullers.length) : ReachPre s →
      Pull s.store s.pullers[i] = some (evts, a, c) →
      ReachPre ⟨a, s.pullers.set i c, s.log⟩

/-- Invariant of `ReachPre` states: the total-pushed counter counts the
history; every cursor is within the history; the puller counter matches the
number of registered pullers; and the buffer holds exactly the slots not yet
read by the slowest puller, each carrying its payload from the history and a
read count equal to the number of pullers past it. -/
def SysInv (s : Sys) : Prop :=
  s.log.length = s.store.eventsPushed ∧
  (∀ c ∈ s.pullers, c ≤ s.store.eventsPushed) ∧
  s.store.pullersCount = s.pullers.length ∧
  s.store.events =
    (List.range' (minCursor s.pullers s.store.eventsPushed)
        (s.store.eventsPushed - minCursor s.pullers s.store.eventsPushed)).map
      (fun g => (s.log.getD g 0, readersCount s.pullers g))

/-! ## Concrete instances used by the scenario theorems -/

/-- Object environment of the basic example (`examples/basic`).  Addresses:
`100` = the top-level `Concatenator`, `101` = the top-level `Multiplier`,
`110`/`111` = their locally constructed `Counter` duplicates.  IDs (the Go
IDs are `reflect.TypeOf(obj).String() + "-" + hash`, whose lexicographic
order is `Concatenator < Counter < Multiplier`, encoded order-preservingly):
`0` = Concatenator, `1` = Counter, `2` = Multiplier. -/
def envBasic : ObjEnv :=
  ⟨fun a => if a = 100 then 0 else if a = 101 then 2 else 1,
   fun a => a, fun _ _ => true⟩

/-- `RegisterDependencies` of the basic example: each top-level object
registers its locally constructed `Counter`; the `Counter` registers
nothing. -/
def regDepsBasic : Nat → List Nat :=
  fun a => if a = 100 then [110] else if a = 101 then [111] else []

/-- The store of the basic example after `store.Register(&concat);
store.Register(&mult)`. -/
def storeBasic : StoreState :=
  ⟨[(0, 100), (2, 101)], [0, 2], [], [0, 2], [0, 2], []⟩

/-- Strict order on IDs (`idLess` of `NewStore`, i.e. `string <` transported
along the order-preserving encoding). -/
def natLess : Nat → Nat → Bool := fun a b => a < b

/-- Subscribers of the three-node chain used to refute the re-entrancy
claim: root `0` publishes to `1`, node `1` publishes to `2`. -/
def subsChain : Nat → List Nat :=
  fun n => if n = 0 then [1] else if n = 1 then [2] else []

/-- Handlers of the chain: node `1`'s handler re-entrantly calls
`NotifyUpdated` on node `2`; no other handler notifies. -/
def targetsChain : Nat → List Nat :=
  fun n => if n = 1 then [2] else []

/-- A forward-closed order: every subscriber of a member occurs strictly
later in the list (decidable formulation over positions; this is the
characteristic property of a cached topological update order). -/
def ForwardClosed (subs : Nat → List Nat) (order : List Nat) : Prop :=
  ∀ i : Fin order.length, ∀ t ∈ subs (order.get i), t ∈ order.drop (i.1 + 1)

instance (subs : Nat → List Nat) (order : List Nat) :
    Decidable (ForwardClosed subs order) := by
  unfold ForwardClosed; infer_instance

/-- Handler model for the amended re-entrancy claims: node `1`'s handler
re-entrantly calls `NotifyUpdated` on its own node; no other handler
notifies. -/
def targetsSelf : Nat → List Nat :=
  fun n => if n = 1 then [1] else []

/-- The chain tree with the root's update order already cached, as after a
first pass from node `0`. -/
def stChainCached : TreeState :=
  ⟨fun _ => false, fun _ => false, fun n => if n = 0 then some [0, 1, 2] else none, []⟩

/-- Well-formed caches: every cached update order is duplicate-free, forward
closed for the subscriber relation (`getUpdateOrder` emits a node before all
of its subscribers), and contains its own node.  This holds of the empty
cache and is preserved by every pass, since cached orders are produced by
`getUpdateOrder`. -/
def CacheWF (subs : Nat → List Nat) (st : TreeState) : Prop :=
  ∀ n o, st.cache n = some o → o.Nodup ∧ ForwardClosed subs o ∧ n ∈ o

/-- Flag coverage: every raised `subscriptionUpdated` flag lies in `pend`
(the concatenation of the pending suffixes of the active handler sweeps, in
the invariant below). -/
def FlagsIn (st : TreeState) (pend : List Nat) : Prop :=
  ∀ x, st.flag x = true → x ∈ pend

/-- A cyclic two-vertex dependency graph (`5` and `6` depend on each
other) with a store holding exactly those two objects, used to witness the
cycle-error theorem.  Addresses equal IDs. -/
def envCyc : ObjEnv := ⟨fun a => a, fun a => a, fun _ _ => true⟩

def regDepsCyc : Nat → List Nat :=
  fun a => if a = 5 then [6] else if a = 6 then [5] else []

def storeCyc : StoreState :=
  ⟨[(5, 5)], [5], [], [5], [5], []⟩

/-- Well-formedness of the canonical map: every entry holds an object whose
computed ID is the entry's key.  `Register` establishes and preserves this,
since it stores each adopted object under its own `getID`. -/
def StoreWF (env : ObjEnv) (s : StoreState) : Prop :=
  ∀ e ∈ s.objects, env.getID e.2 = e.1

instance (env : ObjEnv) (s : StoreState) : Decidable (StoreWF env s) := by
  unfold StoreWF; infer_instance

/-- Number of edges into `v` from vertices of `l` (with multiplicity): the
invariant value of the Kahn in-degree counter when `l` is the list of
not-yet-emitted vertices. -/
def remIn (graph : List (Nat × List Nat)) (l : List Nat) (v : Nat) : Nat :=
  (l.map (fun u => (lookupAdj graph u).count v)).sum

/-- Vertices of `keys` not yet emitted by the Kahn loop. -/
def unpoppedOf (keys result : List Nat) : List Nat :=
  keys.filter (fun x => x ∉ result)

/-- Environment for the dedup witnesses: every object hashes to ID `3`, all
types are compatible. -/
def envW : ObjEnv := ⟨fun _ => 3, fun _ => 0, fun _ _ => true⟩

/-- A store already holding the canonical object `7` under ID `3`. -/
def storeW : StoreState := ⟨[(3, 7)], [3], [], [], [], []⟩

/-! # Theorems -/

/-! ## Association-list lemmas -/

theorem lookupVal_append_none {l : List (Nat × Nat)} {k : Nat}
    (h : lookupVal l k = none) (v : Nat) : lookupVal (l ++ [(k, v)]) k = some v := by
  induction l with
  | nil => simp [lookupVal]
  | cons e rest ih =>
    simp only [lookupVal, List.find?] at h ⊢
    cases he : (e.1 == k) with
    | true => simp [he] at h
    | false =>
      simp only [he] at h ⊢
      exact ih h

theorem lookupVal_mem {l : List (Nat × Nat)} {k v : Nat}
    (h : lookupVal l k = some v) : (k, v) ∈ l := by
  induction l with
  | nil => simp [lookupVal] at h
  | cons e rest ih =>
    simp only [lookupVal, List.find?] at h
    cases he : (e.1 == k) with
    | true =>
      simp only [he, Option.map_some] at h
      have hk : e.1 = k := by simpa using he
      have : e = (k, v) := by
        cases e; cases h; cases hk; rfl
      rw [← this]; exact List.mem_cons_self e rest
    | false =>
      simp only [he] at h
      exact List.mem_cons_of_mem e (ih h)

/-- Two entries of a well-formed canonical map with distinct IDs hold
distinct objects (the object determines the ID). -/
theorem storeWF_distinct {env : ObjEnv} {s : StoreState} (hwf : StoreWF env s) :
    ∀ id1 id2 c1 c2, id1 ≠ id2 → lookupVal s.objects id1 = some c1 →
      lookupVal s.objects id2 = some c2 → c1 ≠ c2 := by
  intro id1 id2 c1 c2 hne h1 h2 hc
  apply hne
  have e1 := hwf _ (lookupVal_mem h1)
  have e2 := hwf _ (lookupVal_mem h2)
  simp only at e1 e2
  rw [← e1, ← e2, hc]

/-- `Register` of an object whose ID is fresh: adopt it. -/
theorem register_fresh_eq (env : ObjEnv) (s : StoreState) (a : Nat)
    (hfresh : lookupVal s.objects (env.getID a) = none) :
    Register env s a = some ({ s with
      dependencies := insertIfAbsent s.dependencies (env.getID a)
      recentlyRegisteredSharedObjects := s.recentlyRegisteredSharedObjects ++ [env.getID a]
      objects := s.objects ++ [(env.getID a, a)]
      objectsRegistrationOrder := s.objectsRegistrationOrder ++ [env.getID a] }, a) := by
  simp only [Register, hfresh]

/-- `Register` of an object whose ID is already mapped to a type-compatible
canonical object: redirect the slot. -/
theorem register_dup_eq (env : ObjEnv) (s : StoreState) (a c : Nat)
    (hex : lookupVal s.objects (env.getID a) = some c)
    (hassign : env.assignable (env.typeOf c) (env.typeOf a) = true) :
    Register env s a = some ({ s with
      dependencies := insertIfAbsent s.dependencies (env.getID a)
      recentlyRegisteredSharedObjects :=
        s.recentlyRegisteredSharedObjects ++ [env.getID a] }, c) := by
  simp only [Register, hex, hassign, if_true]

/-! ## C1: dedup identity -/

/-- C1: registering two objects with equal IDs into a store where that ID is
still fresh adopts the first object as canonical, hands the same canonical
instance back to the second caller's slot (pointer equality of addresses),
leaves the canonical map untouched by the second call, and distinct IDs in
the resulting store always map to distinct canonical instances. -/
theorem register_dedup_identity (env : ObjEnv) (s : StoreState) (a1 a2 : Nat)
    (hwf : StoreWF env s)
    (hid : env.getID a1 = env.getID a2)
    (hfresh : lookupVal s.objects (env.getID a1) = none)
    (hassign : env.assignable (env.typeOf a1) (env.typeOf a2) = true) :
    ∃ s1 s2, Register env s a1 = some (s1, a1) ∧ Register env s1 a2 = some (s2, a1) ∧
      s2.objects = s1.objects ∧ StoreWF env s2 ∧
      (∀ id1 id2 c1 c2, id1 ≠ id2 → lookupVal s2.objects id1 = some c1 →
        lookupVal s2.objects id2 = some c2 → c1 ≠ c2) := by
  have hreg1 := register_fresh_eq env s a1 hfresh
  have hlook : lookupVal (s.objects ++ [(env.getID a1, a1)]) (env.getID a2) = some a1 := by
    rw [← hid]; exact lookupVal_append_none hfresh a1
  have hreg2 := register_dup_eq env ({ s with
      dependencies := insertIfAbsent s.dependencies (env.getID a1)
      recentlyRegisteredSharedObjects := s.recentlyRegisteredSharedObjects ++ [env.getID a1]
      objects := s.objects ++ [(env.getID a1, a1)]
      objectsRegistrationOrder := s.objectsRegistrationOrder ++ [env.getID a1] }) a2 a1
    hlook hassign
  have hwf2 : StoreWF env ({ s with
      dependencies := insertIfAbsent s.dependencies (env.getID a1)
      recentlyRegisteredSharedObjects := s.recentlyRegisteredSharedObjects ++ [env.getID a1]
      objects := s.objects ++ [(env.getID a1, a1)]
      objectsRegistrationOrder := s.objectsRegistrationOrder ++ [env.getID a1] }) := by
    intro e he
    simp only [List.mem_append, List.mem_singleton] at he
    rcases he with he | he
    · exact hwf e he
    · rw [he]
  have hwf3 : StoreWF env ({ s with
      dependencies := insertIfAbsent (insertIfAbsent s.dependencies (env.getID a1))
        (env.getID a2)
      recentlyRegisteredSharedObjects :=
        (s.recentlyRegisteredSharedObjects ++ [env.getID a1]) ++ [env.getID a2]
      objects := s.objects ++ [(env.getID a1, a1)]
      objectsRegistrationOrder := s.objectsRegistrationOrder ++ [env.getID a1] }) :=
    fun e he => hwf2 e he
  exact ⟨_, _, hreg1, hreg2, rfl, hwf3, storeWF_distinct hwf3⟩

/-- Witness for C1 at a concrete store. -/
theorem register_dedup_identity_witness :
    ∃ s1 s2, Register envW StoreState.empty 10 = some (s1, 10) ∧
      Register envW s1 20 = some (s2, 10) ∧
      s2.objects = s1.objects ∧ StoreWF envW s2 ∧
      (∀ id1 id2 c1 c2, id1 ≠ id2 → lookupVal s2.objects id1 = some c1 →
        lookupVal s2.objects id2 = some c2 → c1 ≠ c2) :=
  register_dedup_identity envW StoreState.empty 10 20 (by decide) (by decide) (by decide)
    (by decide)

/-! ## C10: frame of a duplicate registration -/

/-- C10: a `Register` whose ID is already canonically mapped (with a
compatible type) changes only the pending-dependency set and the
recently-registered queue, returns the existing canonical object to the
caller's slot, and leaves the canonical map, the registration order, the
top-level list and the initialization order unchanged. -/
theorem register_existing_frame (env : ObjEnv) (s : StoreState) (a c : Nat)
    (hex : lookupVal s.objects (env.getID a) = some c)
    (hassign : env.assignable (env.typeOf c) (env.typeOf a) = true) :
    Register env s a = some ({ s with
      dependencies := insertIfAbsent s.dependencies (env.getID a)
      recentlyRegisteredSharedObjects :=
        s.recentlyRegisteredSharedObjects ++ [env.getID a] }, c) ∧
    ∀ s' r, Register env s a = some (s', r) →
      s'.objects = s.objects ∧ s'.objectsRegistrationOrder = s.objectsRegistrationOrder ∧
      s'.topLevelDependencies = s.topLevelDependencies ∧
      s'.initializationOrder = s.initializationOrder ∧ r = c := by
  have hreg := register_dup_eq env s a c hex hassign
  refine ⟨hreg, ?_⟩
  intro s' r h
  rw [hreg] at h
  cases h
  exact ⟨rfl, rfl, rfl, rfl, rfl⟩

/-- Witness for C10 at a concrete store. -/
theorem register_existing_frame_witness :
    Register envW storeW 10 = some ({ storeW with
      dependencies := insertIfAbsent storeW.dependencies (envW.getID 10)
      recentlyRegisteredSharedObjects :=
        storeW.recentlyRegisteredSharedObjects ++ [envW.getID 10] }, 7) ∧
    ∀ s' r, Register envW storeW 10 = some (s', r) →
      s'.objects = storeW.objects ∧
      s'.objectsRegistrationOrder = storeW.objectsRegistrationOrder ∧
      s'.topLevelDependencies = storeW.topLevelDependencies ∧
      s'.initializationOrder = storeW.initializationOrder ∧ r = 7 :=
  register_existing_frame envW storeW 10 7 (by decide) (by decide)

/-! ## C3: initialization order of the basic example -/

/-- C3: for the store of the basic example (dependency graph
`Counter ← {Concatenator, Multiplier}`, top-level registration order
`[Concatenator, Multiplier]`), `Init` invokes the per-object `Init` hooks in
exactly the order `[Counter, Multiplier, Concatenator]` (IDs `1, 2, 0` in
the order-preserving encoding of `envBasic`). -/
theorem init_order_basic :
    StoreInit envBasic regDepsBasic (some natLess) 10 storeBasic =
      (.ok ⟨[(0, 100), (2, 101), (1, 110)], [0, 2, 1], [0, 2], [0, 2, 1, 1], [], [1, 2, 0]⟩,
        [1, 2, 0]) := by decide

/-! ## C2 (counterexample part): a re-entrant notification of an unflagged
node does not fire it -/

/-- Refutes C2 as stated: in the chain `0 → 1 → 2` (cached order
`[0, 1, 2]`), node `1`'s handler re-entrantly calls `notify_updated` on node
`2`, which lies later in the root's cached order; yet the pass invokes only
node `1`'s handler — node `2` fires zero times, not exactly once, because its
`subscriptionUpdated` flag was still unset when it was notified, so the
notification started a nested (empty) pass instead of being coalesced. -/
theorem reentrant_notify_cex :
    targetsChain 1 = [2] ∧ subsChain 0 = [1] ∧
    (notifyUpd subsChain targetsChain 20 0 TreeState.fresh).map
      (fun st => (st.cache 0, st.log, st.log.count 2)) = some (some [0, 1, 2], [1], 0) := by
  decide

/-! ## C4 (counterexample part): a puller's cursor starts at zero, not at
the total-pushed count -/

/-- Refutes C4 as stated: after one puller is registered and one event is
published (total pushed = 1), `NewPuller` returns a second puller whose
cursor is `0`, not `1`; its first `Pull` then returns the event published
before its creation. -/
theorem puller_cursor_cex :
    NewPuller EventsPullStorage.empty = (⟨0, [], 1⟩, 0) ∧
    Publish ⟨0, [], 1⟩ 7 = ⟨1, [(7, 0)], 1⟩ ∧
    NewPuller ⟨1, [(7, 0)], 1⟩ = (⟨1, [(7, 0)], 2⟩, 0) ∧
    (0 : Nat) ≠ (⟨1, [(7, 0)], 1⟩ : EventsPullStorage).eventsPushed ∧
    Pull ⟨1, [(7, 0)], 2⟩ 0 = some ([7], ⟨1, [(7, 1)], 2⟩, 1) := by decide

/-! ## C7 (counterexample part): a second `Init` of an empty store is not
rejected -/

/-- Refutes C7 as stated: `Init` of an empty store succeeds and leaves the
top-level dependency list empty, so a second `Init` (of the same resulting
state) succeeds again instead of returning the already-initialized error. -/
theorem init_twice_empty_cex :
    StoreInit envCyc regDepsCyc (some natLess) 5 StoreState.empty = (.ok StoreState.empty, []) ∧
    (StoreInit envCyc regDepsCyc (some natLess) 5 StoreState.empty).1 ≠
      Except.error InitErr.alreadyInitialized := by decide

/-! ## C8 (counterexample part): a puller registered after a slot was
reclaimed has unread lifetime slots that are no longer retained -/

/-- Refutes C8 as stated: create a puller, publish event `5`, let the puller
drain it (the slot is reclaimed), then register a second puller.  The second
puller's cursor is `0`, so it has not read lifetime slot `0`, yet that slot
is no longer retained — the retention biconditional fails in this
`NewPuller`/`Publish`/`Pull`-reachable state. -/
theorem retention_cex :
    NewPuller EventsPullStorage.empty = (⟨0, [], 1⟩, 0) ∧
    Publish ⟨0, [], 1⟩ 5 = ⟨1, [(5, 0)], 1⟩ ∧
    Pull ⟨1, [(5, 0)], 1⟩ 0 = some ([5], ⟨1, [], 1⟩, 1) ∧
    NewPuller ⟨1, [], 1⟩ = (⟨1, [], 2⟩, 0) ∧
    ¬ (Retained ⟨⟨1, [], 2⟩, [1, 0], [5]⟩ 0 ↔ ∃ c ∈ [1, 0], c ≤ 0) := by decide

/-! ## Kahn's algorithm: counter-map lemmas -/

theorem dget_nil (k : Nat) : dget [] k = 0 := rfl

theorem dget_cons (k' : Nat) (v : Int) (rest : List (Nat × Int)) (k : Nat) :
    dget ((k', v) :: rest) k = if k' = k then v else dget rest k := by
  by_cases h : k' = k
  · simp [dget, List.find?, h]
  · have hb : (k' == k) = false := by simpa using h
    simp [dget, List.find?, hb, h]

theorem dget_bump_self (d : List (Nat × Int)) (k : Nat) (δ : Int) :
    dget (bump d k δ) k = dget d k + δ := by
  induction d with
  | nil => simp [bump, dget_cons, dget_nil]
  | cons e rest ih =>
    obtain ⟨k', v⟩ := e
    by_cases hk : k = k'
    · subst hk; simp [bump, dget_cons]
    · simp [bump, hk, dget_cons, Ne.symm hk, ih]

theorem dget_bump_other (d : List (Nat × Int)) (k : Nat) (δ : Int) (x : Nat) (hx : x ≠ k) :
    dget (bump d k δ) x = dget d x := by
  induction d with
  | nil => simp [bump, dget_cons, dget_nil, Ne.symm hx]
  | cons e rest ih =>
    obtain ⟨k', v⟩ := e
    by_cases hk : k = k'
    · subst hk
      rw [show bump ((k, v) :: rest) k δ = (k, v + δ) :: rest from by simp [bump]]
      rw [dget_cons, dget_cons, if_neg (fun h => hx h.symm), if_neg (fun h => hx h.symm)]
    · simp only [bump, if_neg hk]
      rw [dget_cons, dget_cons, ih]

theorem dget_foldl_bump (ns : List Nat) (d : List (Nat × Int)) (δ : Int) (v : Nat) :
    dget (ns.foldl (fun d dep => bump d dep δ) d) v = dget d v + (ns.count v : Int) * δ := by
  induction ns generalizing d with
  | nil => simp
  | cons n ns ih =>
    simp only [List.foldl_cons, ih]
    by_cases hv : n = v
    · subst hv; rw [dget_bump_self]; rw [List.count_cons_self]; push_cast; ring
    · rw [dget_bump_other _ _ _ _ (Ne.symm hv), List.count_cons_of_ne (Ne.symm hv)]

theorem dget_initInDeg (adj : Nat → List Nat) (sortedKeys : List Nat) (v : Nat) :
    dget (initInDeg adj sortedKeys) v =
      (sortedKeys.map (fun u => ((adj u).count v : Int))).sum := by
  suffices h : ∀ d, dget (sortedKeys.foldl (fun d key => (adj key).foldl
      (fun d dep => bump d dep 1) d) d) v =
      dget d v + (sortedKeys.map (fun u => ((adj u).count v : Int))).sum by
    simpa [initInDeg, dget_nil] using h []
  induction sortedKeys with
  | nil => simp
  | cons k ks ih =>
    intro d
    simp only [List.foldl_cons, ih, List.map_cons, List.sum_cons, dget_foldl_bump]
    ring

theorem posCount_cons (k : Nat) (v : Int) (rest : List (Nat × Int)) :
    posCount ((k, v) :: rest) = (if 0 < v then 1 else 0) + posCount rest := by
  by_cases h : (0 : Int) < v <;> simp [posCount, List.filter, h, Nat.add_comm]

theorem posCount_bump_le (d : List (Nat × Int)) (k : Nat) :
    posCount (bump d k (-1)) ≤ posCount d := by
  induction d with
  | nil => simp [bump, posCount, List.filter]
  | cons e rest ih =>
    obtain ⟨k', v⟩ := e
    by_cases hk : k = k'
    · subst hk
      rw [show bump ((k, v) :: rest) k (-1) = (k, v + -1) :: rest from by simp [bump]]
      rw [posCount_cons, posCount_cons]
      have : (if 0 < v + -1 then 1 else 0) ≤ (if 0 < v then 1 else 0) := by
        by_cases h1 : (0 : Int) < v + -1
        · rw [if_pos h1, if_pos (by omega)]
        · rw [if_neg h1]; omega
      omega
    · simp only [bump, if_neg hk]
      rw [posCount_cons, posCount_cons]
      omega

theorem posCount_bump_lt (d : List (Nat × Int)) (k : Nat) (h1 : dget d k = 1) :
    posCount (bump d k (-1)) < posCount d := by
  induction d with
  | nil => rw [dget_nil] at h1; omega
  | cons e rest ih =>
    obtain ⟨k', v⟩ := e
    rw [dget_cons] at h1
    by_cases hk : k = k'
    · subst hk
      rw [if_pos rfl] at h1
      subst h1
      rw [show bump ((k, (1 : Int)) :: rest) k (-1) = (k, 1 + -1) :: rest from by simp [bump]]
      rw [posCount_cons, posCount_cons]
      norm_num
    · rw [if_neg (fun h => hk h.symm)] at h1
      simp only [bump, if_neg hk]
      rw [posCount_cons, posCount_cons]
      have := ih h1
      omega

theorem processNeighbors_phi (ns q : List Nat) (d : List (Nat × Int)) :
    (processNeighbors ns q d).1.length + posCount (processNeighbors ns q d).2 ≤
      q.length + posCount d := by
  induction ns generalizing q d with
  | nil => simp [processNeighbors]
  | cons n ns ih =>
    simp only [processNeighbors]
    by_cases h : dget (bump d n (-1)) n = 0
    · have hd : dget d n = 1 := by
        have := dget_bump_self d n (-1); omega
      have hlt := posCount_bump_lt d n hd
      have hih := ih (q ++ [n]) (bump d n (-1))
      simp only [if_pos h] at hih ⊢
      simp only [List.length_append, List.length_singleton] at hih
      omega
    · have hle := posCount_bump_le d n
      have hih := ih q (bump d n (-1))
      simp only [if_neg h] at hih ⊢
      omega

theorem remIn_nil (graph : List (Nat × List Nat)) (v : Nat) : remIn graph [] v = 0 := rfl

theorem remIn_cons (graph : List (Nat × List Nat)) (u : Nat) (l : List Nat) (v : Nat) :
    remIn graph (u :: l) v = (lookupAdj graph u).count v + remIn graph l v := by
  simp [remIn]

theorem remIn_perm (graph : List (Nat × List Nat)) {l1 l2 : List Nat} (h : l1.Perm l2)
    (v : Nat) : remIn graph l1 v = remIn graph l2 v :=
  (h.map (fun u => (lookupAdj graph u).count v)).sum_eq

theorem count_le_remIn (graph : List (Nat × List Nat)) {u : Nat} {l : List Nat}
    (h : u ∈ l) (v : Nat) : (lookupAdj graph u).count v ≤ remIn graph l v :=
  List.single_le_sum (fun _ _ => Nat.zero_le _) _ (List.mem_map_of_mem _ h)

/-- Splitting off one element of a duplicate-free vertex list. -/
theorem remIn_erase (graph : List (Nat × List Nat)) {l : List Nat} {h : Nat}
    (hnodup : l.Nodup) (hh : h ∈ l) (v : Nat) :
    remIn graph l v =
      (lookupAdj graph h).count v + remIn graph (l.filter (fun x => x ≠ h)) v := by
  have hperm : l.Perm (h :: l.erase h) := List.perm_cons_erase hh
  rw [remIn_perm graph hperm, remIn_cons, hnodup.erase_eq_filter]
  congr 2
  apply List.filter_congr
  intro x _
  by_cases hxh : x = h <;> simp [hxh, bne]

theorem mem_unpoppedOf {keys result : List Nat} {x : Nat} :
    x ∈ unpoppedOf keys result ↔ x ∈ keys ∧ x ∉ result := by
  simp [unpoppedOf]

theorem nodup_unpoppedOf {keys : List Nat} (h : keys.Nodup) (result : List Nat) :
    (unpoppedOf keys result).Nodup :=
  h.filter _

theorem unpoppedOf_append_singleton (keys result : List Nat) (h : Nat) :
    unpoppedOf keys (result ++ [h]) =
      (unpoppedOf keys result).filter (fun x => x ≠ h) := by
  show keys.filter (fun x => x ∉ result ++ [h]) =
    (keys.filter (fun x => x ∉ result)).filter (fun x => x ≠ h)
  rw [List.filter_filter]
  apply List.filter_congr
  intro x _
  by_cases h1 : x ∈ result <;> by_cases h2 : x = h <;>
    simp [h1, h2, List.mem_append]

theorem edge_mem_keys {graph : List (Nat × List Nat)} {u v : Nat}
    (h : EdgeOf graph u v) : u ∈ keysOf graph := by
  unfold EdgeOf lookupAdj at h
  cases hf : graph.find? (fun e => e.1 == u) with
  | none => rw [hf] at h; simp at h
  | some e =>
    have hmem := List.mem_of_find?_eq_some hf
    have hpred := List.find?_some hf
    have : e.1 = u := by simpa using hpred
    rw [← this]
    exact List.mem_map_of_mem Prod.fst hmem

theorem lookupAdj_subset_keys {graph : List (Nat × List Nat)} (hclosed : ClosedGraph graph)
    (k : Nat) : ∀ v ∈ lookupAdj graph k, v ∈ keysOf graph := by
  intro v hv
  unfold lookupAdj at hv
  cases hf : graph.find? (fun e => e.1 == k) with
  | none => rw [hf] at hv; simp at hv
  | some e =>
    rw [hf] at hv
    exact hclosed e (List.mem_of_find?_eq_some hf) v hv

/-- Decomposing `l ++ [h] = l1 ++ v :: l2`: either the split is at the very
end, or it happens inside `l`. -/
theorem append_singleton_decomp {l l1 l2 : List Nat} {v h : Nat}
    (heq : l ++ [h] = l1 ++ v :: l2) :
    (l2 = [] ∧ v = h ∧ l1 = l) ∨ (∃ l2', l = l1 ++ v :: l2') := by
  rcases List.eq_nil_or_concat l2 with h2 | ⟨l2', x, rfl⟩
  · subst h2
    have hlen : l.length = l1.length := by
      have := congrArg List.length heq
      simp at this
      omega
    have := List.append_inj heq (by simpa using hlen)
    rcases this with ⟨rfl, hx⟩
    simp at hx
    exact Or.inl ⟨rfl, hx.symm, rfl⟩
  · right
    rw [List.concat_eq_append] at heq
    rw [show l1 ++ v :: (l2' ++ [x]) = (l1 ++ v :: l2') ++ [x] by simp] at heq
    have hlen : l.length = (l1 ++ v :: l2').length := by
      have h3 := congrArg List.length heq
      simp only [List.length_append, List.length_cons, List.length_singleton] at h3
      simp only [List.length_append, List.length_cons]
      omega
    have := List.append_inj heq (by simpa using hlen)
    exact ⟨l2', this.1⟩

theorem kahnLoop_isSome (adj : Nat → List Nat) :
    ∀ (fuel : Nat) (q result : List Nat) (d : List (Nat × Int)),
      q.length + posCount d < fuel → (kahnLoop adj fuel q result d).isSome = true := by
  intro fuel
  induction fuel with
  | zero => intro q result d h; omega
  | succ fuel ih =>
    intro q result d h
    match q with
    | [] => simp [kahnLoop]
    | n :: rest =>
      simp only [kahnLoop]
      apply ih
      have hphi := processNeighbors_phi (adj n) rest d
      simp only [List.length_cons] at h
      omega

/-- Invariant transfer through one `processNeighbors` fold.  `U` is the list
of vertices not yet emitted after the current pop, `result` the emitted list
including the popped vertex, `ns` the remaining neighbours to decrement. -/
theorem processNeighbors_inv (graph : List (Nat × List Nat)) (U result : List Nat) :
    ∀ (ns q : List Nat) (d : List (Nat × Int)),
    (∀ v, dget d v = (remIn graph U v : Int) + (ns.count v : Int)) →
    (∀ v ∈ q, remIn graph U v = 0) →
    ((result ++ q).Nodup) →
    (∀ v ∈ keysOf graph, remIn graph U v = 0 → v ∈ result ∨ v ∈ q ∨ 0 < ns.count v) →
    (∀ v ∈ result ++ q, v ∉ ns) →
    (∀ v ∈ q, v ∈ keysOf graph) →
    (∀ v ∈ ns, v ∈ keysOf graph) →
    ((∀ v, dget (processNeighbors ns q d).2 v = (remIn graph U v : Int)) ∧
     (∀ v ∈ (processNeighbors ns q d).1, remIn graph U v = 0) ∧
     ((result ++ (processNeighbors ns q d).1).Nodup) ∧
     (∀ v ∈ keysOf graph, remIn graph U v = 0 →
       v ∈ result ∨ v ∈ (processNeighbors ns q d).1) ∧
     (∀ v ∈ (processNeighbors ns q d).1, v ∈ keysOf graph)) := by
  intro ns
  induction ns with
  | nil =>
    intro q d H1 H2 H3 H5 H6 H7 H8
    refine ⟨?_, H2, H3, ?_, H7⟩
    · intro v
      have := H1 v
      simpa using this
    · intro v hv h0
      rcases H5 v hv h0 with h | h | h
      · exact Or.inl h
      · exact Or.inr h
      · simp at h
  | cons n ns ih =>
    intro q d H1 H2 H3 H5 H6 H7 H8
    simp only [processNeighbors]
    have hn_keys : n ∈ keysOf graph := H8 n (List.mem_cons_self n ns)
    have H1' : ∀ v, dget (bump d n (-1)) v =
        (remIn graph U v : Int) + (ns.count v : Int) := by
      intro v
      by_cases hv : v = n
      · subst hv
        rw [dget_bump_self, H1 v, List.count_cons_self]
        push_cast
        ring
      · rw [dget_bump_other d n (-1) v hv, H1 v, List.count_cons_of_ne hv]
    by_cases hpush : dget (bump d n (-1)) n = 0
    · have h0 : remIn graph U n = 0 ∧ ns.count n = 0 := by
        have hh := H1' n
        rw [hpush] at hh
        constructor <;> omega
      have hn_notin : n ∉ result ++ q := fun hmem => (H6 n hmem) (List.mem_cons_self n ns)
      rw [if_pos hpush]
      apply ih (q ++ [n]) (bump d n (-1)) H1'
      · intro v hv
        rcases List.mem_append.mp hv with hv | hv
        · exact H2 v hv
        · rw [List.mem_singleton] at hv
          subst hv
          exact h0.1
      · rw [← List.append_assoc]
        refine List.Nodup.append H3 (List.nodup_singleton n) ?_
        intro a ha hb
        rw [List.mem_singleton] at hb
        subst hb
        exact hn_notin ha
      · intro v hv h0v
        rcases H5 v hv h0v with h | h | h
        · exact Or.inl h
        · exact Or.inr (Or.inl (List.mem_append.mpr (Or.inl h)))
        · by_cases hvn : v = n
          · subst hvn
            exact Or.inr (Or.inl (List.mem_append.mpr (Or.inr (List.mem_singleton.mpr rfl))))
          · rw [List.count_cons_of_ne hvn] at h
            exact Or.inr (Or.inr h)
      · intro v hv
        rw [← List.append_assoc] at hv
        rcases List.mem_append.mp hv with hv | hv
        · exact fun hns => (H6 v hv) (List.mem_cons_of_mem n hns)
        · rw [List.mem_singleton] at hv
          subst hv
          exact List.count_eq_zero.mp h0.2
      · intro v hv
        rcases List.mem_append.mp hv with hv | hv
        · exact H7 v hv
        · rw [List.mem_singleton] at hv
          subst hv
          exact hn_keys
      · exact fun v hv => H8 v (List.mem_cons_of_mem n hv)
    · rw [if_neg hpush]
      apply ih q (bump d n (-1)) H1' H2 H3
      · intro v hv h0v
        rcases H5 v hv h0v with h | h | h
        · exact Or.inl h
        · exact Or.inr (Or.inl h)
        · by_cases hvn : v = n
          · subst hvn
            by_cases hcnt : 0 < ns.count v
            · exact Or.inr (Or.inr hcnt)
            · exfalso
              apply hpush
              rw [H1' v, h0v]
              have : ns.count v = 0 := by omega
              rw [this]
              simp
          · rw [List.count_cons_of_ne hvn] at h
            exact Or.inr (Or.inr h)
      · exact fun v hv hns => (H6 v hv) (List.mem_cons_of_mem n hns)
      · exact H7
      · exact fun v hv => H8 v (List.mem_cons_of_mem n hv)

/-- Main invariant of the Kahn loop.  On success the emitted list is
duplicate-free, lies in the vertex set, extends the accumulated result,
lists every in-neighbour of an emitted vertex before it, and (because the
queue is empty at termination) contains every vertex all of whose in-edges
come from emitted vertices. -/
theorem kahnLoop_inv (graph : List (Nat × List Nat)) (hclosed : ClosedGraph graph)
    (hkeys : (keysOf graph).Nodup) :
    ∀ (fuel : Nat) (q result : List Nat) (d : List (Nat × Int)) (res : List Nat),
    kahnLoop (lookupAdj graph) fuel q result d = some res →
    (∀ v, dget d v = (remIn graph (unpoppedOf (keysOf graph) result) v : Int)) →
    (∀ v ∈ q, remIn graph (unpoppedOf (keysOf graph) result) v = 0) →
    ((result ++ q).Nodup) →
    (∀ v ∈ result, remIn graph (unpoppedOf (keysOf graph) result) v = 0) →
    (∀ v ∈ keysOf graph, remIn graph (unpoppedOf (keysOf graph) result) v = 0 →
      v ∈ result ∨ v ∈ q) →
    (∀ v ∈ result, v ∈ keysOf graph) →
    (∀ v ∈ q, v ∈ keysOf graph) →
    (∀ l1 v l2, result = l1 ++ v :: l2 → ∀ u, EdgeOf graph u v → u ∈ l1) →
    (res.Nodup ∧ (∀ v ∈ res, v ∈ keysOf graph) ∧
     (∃ ext, res = result ++ ext) ∧
     (∀ l1 v l2, res = l1 ++ v :: l2 → ∀ u, EdgeOf graph u v → u ∈ l1) ∧
     (∀ v ∈ keysOf graph, remIn graph (unpoppedOf (keysOf graph) res) v = 0 →
       v ∈ res)) := by
  intro fuel
  induction fuel with
  | zero =>
    intro q result d res hrun I1 I2 I3 I4 I5 I6r I6q I7
    match q, hrun with
    | [], hrun =>
      injection hrun with hres
      subst hres
      refine ⟨by simpa using I3, I6r, ⟨[], by simp⟩, I7, ?_⟩
      intro v hv h0
      rcases I5 v hv h0 with h | h
      · exact h
      · simp at h
    | _ :: _, hrun => exact absurd hrun (by simp [kahnLoop])
  | succ fuel ih =>
    intro q result d res hrun I1 I2 I3 I4 I5 I6r I6q I7
    match q with
    | [] =>
      injection hrun with hres
      subst hres
      refine ⟨by simpa using I3, I6r, ⟨[], by simp⟩, I7, ?_⟩
      intro v hv h0
      rcases I5 v hv h0 with h | h
      · exact h
      · simp at h
    | h :: rest =>
      simp only [kahnLoop] at hrun
      have hhk : h ∈ keysOf graph := I6q h (List.mem_cons_self _ _)
      have hhne : h ∉ result := by
        intro hmem
        exact (List.nodup_append.mp I3).2.2 hmem (List.mem_cons_self _ _)
      have hU : h ∈ unpoppedOf (keysOf graph) result := mem_unpoppedOf.mpr ⟨hhk, hhne⟩
      have hUnodup := nodup_unpoppedOf hkeys result
      have hremh : remIn graph (unpoppedOf (keysOf graph) result) h = 0 :=
        I2 h (List.mem_cons_self _ _)
      have hsplit : ∀ v, remIn graph (unpoppedOf (keysOf graph) result) v =
          (lookupAdj graph h).count v +
            remIn graph (unpoppedOf (keysOf graph) (result ++ [h])) v := by
        intro v
        rw [unpoppedOf_append_singleton]
        exact remIn_erase graph hUnodup hU v
      have hI4' : ∀ v ∈ result ++ [h],
          remIn graph (unpoppedOf (keysOf graph) (result ++ [h])) v = 0 := by
        intro v hv
        rcases List.mem_append.mp hv with hv | hv
        · have := I4 v hv
          have := hsplit v
          omega
        · rw [List.mem_singleton] at hv
          subst hv
          have := hsplit v
          omega
      have hP := processNeighbors_inv graph (unpoppedOf (keysOf graph) (result ++ [h]))
        (result ++ [h]) (lookupAdj graph h) rest d
        (by
          intro v
          rw [I1 v, hsplit v]
          push_cast
          ring)
        (by
          intro v hv
          have := I2 v (List.mem_cons_of_mem h hv)
          have := hsplit v
          omega)
        (by
          rw [List.append_assoc]
          exact I3)
        (by
          intro v hv h0v
          by_cases hold : remIn graph (unpoppedOf (keysOf graph) result) v = 0
          · rcases I5 v hv hold with h1 | h1
            · exact Or.inl (List.mem_append.mpr (Or.inl h1))
            · rcases List.mem_cons.mp h1 with h1 | h1
              · subst h1
                exact Or.inl (List.mem_append.mpr (Or.inr (List.mem_singleton.mpr rfl)))
              · exact Or.inr (Or.inl h1)
          · have := hsplit v
            refine Or.inr (Or.inr ?_)
            omega)
        (by
          intro v hv hadj
          -- v is already emitted or queued, hence all remaining in-degree of
          -- v is zero; but the unpopped vertex h would contribute its edge.
          have hremv : remIn graph (unpoppedOf (keysOf graph) result) v = 0 := by
            rcases List.mem_append.mp hv with hv | hv
            · rcases List.mem_append.mp hv with hv | hv
              · exact I4 v hv
              · rw [List.mem_singleton] at hv
                subst hv
                exact hremh
            · exact I2 v (List.mem_cons_of_mem h hv)
          have hcle := count_le_remIn graph hU v
          have hcnt : 0 < (lookupAdj graph h).count v := List.count_pos_iff.mpr hadj
          omega)
        (by exact fun v hv => I6q v (List.mem_cons_of_mem h hv))
        (lookupAdj_subset_keys hclosed h)
      obtain ⟨PC1, PC2, PC3, PC4, PC5⟩ := hP
      have hmain := ih (processNeighbors (lookupAdj graph h) rest d).1 (result ++ [h])
        (processNeighbors (lookupAdj graph h) rest d).2 res hrun PC1 PC2 PC3 hI4' PC4
        (by
          intro v hv
          rcases List.mem_append.mp hv with hv | hv
          · exact I6r v hv
          · rw [List.mem_singleton] at hv
            subst hv
            exact hhk)
        PC5
        (by
          intro l1 v l2 heq u hedge
          rcases append_singleton_decomp heq with ⟨_, hvh, hl1⟩ | ⟨l2', heq'⟩
          · subst hvh
            by_contra hu
            have hu' : u ∉ result := fun hc => hu (hl1 ▸ hc)
            have huk : u ∈ keysOf graph := edge_mem_keys hedge
            have huU : u ∈ unpoppedOf (keysOf graph) result := mem_unpoppedOf.mpr ⟨huk, hu'⟩
            have hcnt : 0 < (lookupAdj graph u).count v := List.count_pos_iff.mpr hedge
            have := count_le_remIn graph huU v
            omega
          · exact I7 l1 v l2' heq' u hedge)
      obtain ⟨C1, C2, ⟨ext, hext⟩, C4, C5⟩ := hmain
      refine ⟨C1, C2, ⟨h :: ext, ?_⟩, C4, C5⟩
      rw [hext, List.append_assoc]
      rfl

theorem unpoppedOf_nil (keys : List Nat) : unpoppedOf keys [] = keys := by
  simp [unpoppedOf]

/-- Running `StableTopologicalSortWithSortedKeys` under the standard
assumptions: the Kahn loop terminates within its fuel and emits a list with
the loop invariants; the sorter answers `.ok` or the cycle error depending on
whether that list covers the graph. -/
theorem sort_run (graph : List (Nat × List Nat)) (sortedKeys : List Nat)
    (hclosed : ClosedGraph graph) (hkeys : (keysOf graph).Nodup)
    (hperm : sortedKeys.Perm (keysOf graph)) :
    ∃ res,
      kahnLoop (lookupAdj graph)
        ((sortedKeys.filter
            (fun v => dget (initInDeg (lookupAdj graph) sortedKeys) v = 0)).length
          + posCount (initInDeg (lookupAdj graph) sortedKeys) + 1)
        (sortedKeys.filter
          (fun v => dget (initInDeg (lookupAdj graph) sortedKeys) v = 0))
        [] (initInDeg (lookupAdj graph) sortedKeys) = some res ∧
      res.Nodup ∧ (∀ v ∈ res, v ∈ keysOf graph) ∧
      (∀ l1 v l2, res = l1 ++ v :: l2 → ∀ u, EdgeOf graph u v → u ∈ l1) ∧
      (∀ v ∈ keysOf graph, remIn graph (unpoppedOf (keysOf graph) res) v = 0 →
        v ∈ res) ∧
      StableTopologicalSortWithSortedKeys graph sortedKeys =
        (if res.length ≠ graph.length then .error .cyclicDependencies else .ok res) := by
  have hlenk : (keysOf graph).length = graph.length := by simp [keysOf]
  have hlen : sortedKeys.length = graph.length := by rw [hperm.length_eq, hlenk]
  have hsknd : sortedKeys.Nodup := (hperm.nodup_iff).mpr hkeys
  have hI1 : ∀ v, dget (initInDeg (lookupAdj graph) sortedKeys) v =
      (remIn graph (unpoppedOf (keysOf graph) []) v : Int) := by
    intro v
    rw [unpoppedOf_nil, dget_initInDeg, remIn, Nat.cast_list_sum, List.map_map]
    exact (hperm.map _).sum_eq
  have hisSome := kahnLoop_isSome (lookupAdj graph)
    ((sortedKeys.filter
        (fun v => dget (initInDeg (lookupAdj graph) sortedKeys) v = 0)).length
      + posCount (initInDeg (lookupAdj graph) sortedKeys) + 1)
    (sortedKeys.filter
      (fun v => dget (initInDeg (lookupAdj graph) sortedKeys) v = 0))
    [] (initInDeg (lookupAdj graph) sortedKeys) (by omega)
  obtain ⟨res, hrun⟩ := Option.isSome_iff_exists.mp hisSome
  have hinv := kahnLoop_inv graph hclosed hkeys _ _ [] _ res hrun hI1
    (by
      intro v hv
      have hv' := List.of_mem_filter hv
      have h0 : dget (initInDeg (lookupAdj graph) sortedKeys) v = 0 := by
        simpa using hv'
      have := hI1 v
      omega)
    (by
      simpa using hsknd.filter _)
    (by simp)
    (by
      intro v hv h0
      refine Or.inr (List.mem_filter.mpr ⟨hperm.mem_iff.mpr hv, ?_⟩)
      have := hI1 v
      simp only [decide_eq_true_eq]
      omega)
    (by simp)
    (by
      intro v hv
      exact hperm.subset (List.mem_of_mem_filter hv))
    (by
      intro l1 v l2 heq
      exact absurd heq (by simp))
  obtain ⟨C1, C2, _, C4, C5⟩ := hinv
  refine ⟨res, hrun, C1, C2, C4, C5, ?_⟩
  show StableTopologicalSortWithSortedKeys graph sortedKeys = _
  unfold StableTopologicalSortWithSortedKeys
  rw [if_neg (by omega)]
  show (match kahnLoop (lookupAdj graph)
      ((sortedKeys.filter
          (fun v => dget (initInDeg (lookupAdj graph) sortedKeys) v = 0)).length
        + posCount (initInDeg (lookupAdj graph) sortedKeys) + 1)
      (sortedKeys.filter
        (fun v => dget (initInDeg (lookupAdj graph) sortedKeys) v = 0))
      [] (initInDeg (lookupAdj graph) sortedKeys) with
    | none => Except.error SortErr.outOfFuel
    | some result =>
      if result.length ≠ graph.length then Except.error SortErr.cyclicDependencies
      else Except.ok result) = _
  rw [hrun]

/-- Every in-neighbour of an emitted vertex has a smaller index in the
emitted list. -/
theorem edge_indexOf_lt {graph : List (Nat × List Nat)} {res : List Nat}
    (hnodup : res.Nodup)
    (hord : ∀ l1 v l2, res = l1 ++ v :: l2 → ∀ u, EdgeOf graph u v → u ∈ l1) :
    ∀ u v, EdgeOf graph u v → v ∈ res → res.indexOf u < res.indexOf v := by
  intro u v hedge hv
  obtain ⟨l1, l2, hres⟩ := List.append_of_mem hv
  subst hres
  have hu : u ∈ l1 := hord l1 v l2 rfl u hedge
  have hvnotl1 : v ∉ l1 := by
    intro hc
    exact (List.nodup_append.mp hnodup).2.2 hc (List.mem_cons_self _ _)
  rw [List.indexOf_append_of_mem hu, List.indexOf_append_of_not_mem hvnotl1,
    List.indexOf_cons_self]
  have := List.indexOf_lt_length.mpr hu
  omega

/-- Reachable vertices appear strictly later in the emitted list. -/
theorem reach_indexOf_lt {graph : List (Nat × List Nat)} {res : List Nat}
    (hclosed : ClosedGraph graph) (hnodup : res.Nodup)
    (hord : ∀ l1 v l2, res = l1 ++ v :: l2 → ∀ u, EdgeOf graph u v → u ∈ l1)
    (hall : ∀ v ∈ keysOf graph, v ∈ res) :
    ∀ u v, ReachOf graph u v → res.indexOf u < res.indexOf v := by
  intro u v hreach
  induction hreach with
  | single h =>
    exact edge_indexOf_lt hnodup hord _ _ h (hall _ (lookupAdj_subset_keys hclosed _ _ h))
  | tail hab h ih =>
    have := edge_indexOf_lt hnodup hord _ _ h (hall _ (lookupAdj_subset_keys hclosed _ _ h))
    omega

/-- If the emitted list is stuck (every fully-released vertex is emitted) yet
some vertex remains unemitted, the graph has a cycle: every unemitted vertex
keeps an unemitted in-neighbour, and iterating that choice must repeat. -/
theorem cycle_of_stuck (graph : List (Nat × List Nat)) (res : List Nat)
    (hstuck : ∀ v ∈ keysOf graph, remIn graph (unpoppedOf (keysOf graph) res) v = 0 →
      v ∈ res)
    (hne : unpoppedOf (keysOf graph) res ≠ []) :
    ∃ v, ReachOf graph v v := by
  classical
  have hpred : ∀ x : {x // x ∈ unpoppedOf (keysOf graph) res},
      ∃ u, u ∈ unpoppedOf (keysOf graph) res ∧ EdgeOf graph u x.1 := by
    rintro ⟨v, hv⟩
    obtain ⟨hvk, hvr⟩ := mem_unpoppedOf.mp hv
    have hrem : remIn graph (unpoppedOf (keysOf graph) res) v ≠ 0 :=
      fun h0 => hvr (hstuck v hvk h0)
    by_contra hnone
    push_neg at hnone
    apply hrem
    apply List.sum_eq_zero
    intro x hx
    obtain ⟨u, hu, rfl⟩ := List.mem_map.mp hx
    have : v ∉ lookupAdj graph u := fun hvm => hnone u hu hvm
    exact List.count_eq_zero.mpr this
  let F : {x // x ∈ unpoppedOf (keysOf graph) res} →
      {x // x ∈ unpoppedOf (keysOf graph) res} :=
    fun x => ⟨(hpred x).choose, (hpred x).choose_spec.1⟩
  have hF : ∀ x, EdgeOf graph (F x).1 x.1 := fun x => (hpred x).choose_spec.2
  obtain ⟨v0, hv0⟩ := List.exists_mem_of_ne_nil _ hne
  have hchain : ∀ (k : Nat) (x : {x // x ∈ unpoppedOf (keysOf graph) res}),
      ReachOf graph (F^[k + 1] x).1 x.1 := by
    intro k
    induction k with
    | zero => intro x; exact Relation.TransGen.single (hF x)
    | succ k ih =>
      intro x
      rw [Function.iterate_succ_apply]
      exact Relation.TransGen.trans (ih (F x)) (Relation.TransGen.single (hF x))
  have main : ∀ i j : Nat, i < j →
      (F^[i] ⟨v0, hv0⟩).1 = (F^[j] ⟨v0, hv0⟩).1 → ∃ v, ReachOf graph v v := by
    intro i j hlt heq2
    have hsub : F^[j] ⟨v0, hv0⟩ = F^[(j - i - 1) + 1] (F^[i] ⟨v0, hv0⟩) := by
      rw [← Function.iterate_add_apply]
      congr 1
      omega
    have hr := hchain (j - i - 1) (F^[i] ⟨v0, hv0⟩)
    rw [← hsub] at hr
    rw [← heq2] at hr
    exact ⟨_, hr⟩
  have hmaps : ∀ n ∈ Finset.range ((unpoppedOf (keysOf graph) res).toFinset.card + 1),
      (F^[n] ⟨v0, hv0⟩).1 ∈ (unpoppedOf (keysOf graph) res).toFinset := by
    intro n _
    exact List.mem_toFinset.mpr (F^[n] ⟨v0, hv0⟩).2
  obtain ⟨i, hi, j, hj, hne', heq2⟩ :=
    Finset.exists_ne_map_eq_of_card_lt_of_maps_to (by simp) hmaps
  rcases hne'.lt_or_lt with hij | hij
  · exact main i j hij heq2
  · exact main j i hij heq2.symm

/-- A rank function whose value strictly increases along every edge
witnesses acyclicity (checkable by `decide` on concrete graphs). -/
theorem acyclic_of_rank (graph : List (Nat × List Nat)) (f : Nat → Nat)
    (hf : ∀ u ∈ keysOf graph, ∀ v ∈ lookupAdj graph u, f u < f v) :
    AcyclicGraph graph := by
  have hstep : ∀ u v, EdgeOf graph u v → f u < f v :=
    fun u v h => hf u (edge_mem_keys h) v h
  have hreach : ∀ u v, ReachOf graph u v → f u < f v := by
    intro u v h
    induction h with
    | single h => exact hstep _ _ h
    | tail hab h ih => exact Nat.lt_trans ih (hstep _ _ h)
  intro v hv
  exact absurd (hreach v v hv) (by omega)

theorem lookupAdj_eq_nil {graph : List (Nat × List Nat)}
    (h : ∀ e ∈ graph, e.2 = []) (k : Nat) : lookupAdj graph k = [] := by
  unfold lookupAdj
  cases hf : graph.find? (fun e => e.1 == k) with
  | none => rfl
  | some e => simpa using h e (List.mem_of_find?_eq_some hf)

theorem initInDeg_edgeless {adj : Nat → List Nat} (h : ∀ k, adj k = [])
    (sortedKeys : List Nat) : initInDeg adj sortedKeys = [] := by
  unfold initInDeg
  induction sortedKeys with
  | nil => rfl
  | cons k ks ih => rw [List.foldl_cons, h k, List.foldl_nil]; exact ih

theorem kahnLoop_edgeless {adj : Nat → List Nat} (h : ∀ k, adj k = []) :
    ∀ (q : List Nat) (fuel : Nat) (result : List Nat), q.length < fuel →
      kahnLoop adj fuel q result [] = some (result ++ q) := by
  intro q
  induction q with
  | nil =>
    intro fuel result _
    cases fuel <;> simp [kahnLoop]
  | cons n rest ih =>
    intro fuel result hlen
    match fuel, hlen with
    | fuel + 1, hlen =>
      simp only [kahnLoop, h n, processNeighbors]
      rw [ih fuel (result ++ [n]) (by simp only [List.length_cons] at hlen; omega)]
      congr 1
      simp

/-! ## C5: the stable topological sorter -/

/-- Refutes C5 as stated: on the two-vertex graph where `8` depends on `9`,
the sorter emits `[8, 9]` — vertex `8` appears *before* the vertex reachable
from it, not after (the *reversal* in `Init` is what puts dependencies
first). -/
theorem topo_sort_after_cex :
    StableTopologicalSortWithSortedKeys [(8, [9]), (9, [])] [8, 9] = .ok [8, 9] ∧
    ReachOf [(8, [9]), (9, [])] 8 9 ∧
    ¬ ([8, 9].indexOf 9 < [8, 9].indexOf 8) :=
  ⟨by decide, Relation.TransGen.single (by decide), by decide⟩

/-- C5 (corrected): for every closed acyclic graph and stability list
containing each vertex exactly once, the sorter succeeds and returns a
permutation of the vertices in which every vertex appears *before* each
vertex reachable from it through the depends-on edges; on an edgeless graph
the output is exactly the stability list (ties resolved by stability
order). -/
theorem topo_sort_correct (graph : List (Nat × List Nat)) (sortedKeys : List Nat)
    (hclosed : ClosedGraph graph) (hkeys : (keysOf graph).Nodup)
    (hperm : sortedKeys.Perm (keysOf graph)) (hacyc : AcyclicGraph graph) :
    ∃ result, StableTopologicalSortWithSortedKeys graph sortedKeys = .ok result ∧
      result.Perm (keysOf graph) ∧
      (∀ u v, ReachOf graph u v → result.indexOf u < result.indexOf v) ∧
      ((∀ e ∈ graph, e.2 = []) → result = sortedKeys) := by
  obtain ⟨res, hrun, hnodup, hsub, hord, hstuck, heq⟩ :=
    sort_run graph sortedKeys hclosed hkeys hperm
  have hU : unpoppedOf (keysOf graph) res = [] := by
    by_contra hne
    obtain ⟨v, hv⟩ := cycle_of_stuck graph res hstuck hne
    exact hacyc v hv
  have hall : ∀ v ∈ keysOf graph, v ∈ res := by
    intro v hv
    by_contra hvr
    have hm : v ∈ unpoppedOf (keysOf graph) res := mem_unpoppedOf.mpr ⟨hv, hvr⟩
    rw [hU] at hm
    simp at hm
  have hpermres : res.Perm (keysOf graph) :=
    (hnodup.subperm hsub).antisymm (hkeys.subperm hall)
  have hlenres : res.length = graph.length := by
    rw [hpermres.length_eq]
    simp [keysOf]
  refine ⟨res, ?_, hpermres, ?_, ?_⟩
  · rw [heq, if_neg (by omega)]
  · exact fun u v h => reach_indexOf_lt hclosed hnodup hord hall u v h
  · intro hedgeless
    have hadj : ∀ k, lookupAdj graph k = [] := lookupAdj_eq_nil hedgeless
    have hd0 : initInDeg (lookupAdj graph) sortedKeys = [] :=
      initInDeg_edgeless hadj sortedKeys
    have hq0 : sortedKeys.filter
        (fun v => dget (initInDeg (lookupAdj graph) sortedKeys) v = 0) = sortedKeys := by
      rw [hd0]
      apply List.filter_eq_self.mpr
      intro a _
      simp [dget_nil]
    rw [hq0, hd0] at hrun
    have hpc : posCount ([] : List (Nat × Int)) = 0 := rfl
    rw [kahnLoop_edgeless hadj sortedKeys _ [] (by omega)] at hrun
    injection hrun with h
    rw [← h]
    simp

/-- Witness for C5 on the basic example's dependency graph. -/
theorem topo_sort_correct_witness :
    ∃ result, StableTopologicalSortWithSortedKeys [(0, [1]), (1, []), (2, [1])] [0, 1, 2] =
        .ok result ∧
      result.Perm (keysOf [(0, [1]), (1, []), (2, [1])]) ∧
      (∀ u v, ReachOf [(0, [1]), (1, []), (2, [1])] u v →
        result.indexOf u < result.indexOf v) ∧
      ((∀ e ∈ [(0, [1]), (1, []), (2, [1])], e.2 = []) → result = [0, 1, 2]) :=
  topo_sort_correct [(0, [1]), (1, []), (2, [1])] [0, 1, 2] (by decide) (by decide)
    (by decide)
    (acyclic_of_rank _ (fun v => if v = 1 then 1 else 0) (by decide))

/-! ## Dependency collection: structure of the collected graph -/

/-- `Register` never touches the top-level list or the initialization
order. -/
theorem register_frame (env : ObjEnv) (s : StoreState) (a : Nat) (p : StoreState × Nat)
    (h : Register env s a = some p) :
    p.1.topLevelDependencies = s.topLevelDependencies ∧
    p.1.initializationOrder = s.initializationOrder := by
  cases hl : lookupVal s.objects (env.getID a) with
  | none =>
    rw [register_fresh_eq env s a hl] at h
    injection h with h
    rw [← h]
    exact ⟨rfl, rfl⟩
  | some c =>
    by_cases hassign : env.assignable (env.typeOf c) (env.typeOf a) = true
    · rw [register_dup_eq env s a c hl hassign] at h
      injection h with h
      rw [← h]
      exact ⟨rfl, rfl⟩
    · exfalso
      have hnone : Register env s a = none := by
        simp only [Register, hl]
        simp [hassign]
      rw [hnone] at h
      cases h

/-- `RegisterDependencies` (a fold of `Register`s) never touches the
top-level list. -/
theorem gatherOne_frame (env : ObjEnv) (_regDeps : Nat → List Nat) :
    ∀ (cs : List Nat) (s s1 : StoreState),
    cs.foldlM (fun s c => (Register env s c).map Prod.fst) s = some s1 →
    s1.topLevelDependencies = s.topLevelDependencies := by
  intro cs
  induction cs with
  | nil =>
    intro s s1 h
    injection h with h
    rw [h]
  | cons c cs ih =>
    intro s s1 h
    rw [List.foldlM_cons] at h
    cases hr : Register env s c with
    | none => rw [hr] at h; cases h
    | some p =>
      rw [hr] at h
      have := ih p.1 s1 h
      rw [this, (register_frame env s c p hr).1]

theorem keysOf_append (g1 g2 : List (Nat × List Nat)) :
    keysOf (g1 ++ g2) = keysOf g1 ++ keysOf g2 := by
  simp [keysOf]

/-- Structure of the graph built by the collection loop: it extends the
accumulated graph by fresh-keyed entries, covers everything that was
pending, every new entry's adjacency list points into the final vertex set,
keys stay duplicate-free, and the store's top-level list is untouched. -/
theorem collectLoop_graph (env : ObjEnv) (regDeps : Nat → List Nat) :
    ∀ (fuel : Nat) (pending : List Nat) (s : StoreState)
      (graph : List (Nat × List Nat)) (s2 : StoreState) (graph2 : List (Nat × List Nat)),
    collectLoop env regDeps fuel pending s graph = some (s2, graph2) →
    ((∃ ext, graph2 = graph ++ ext) ∧
     (∀ id ∈ pending, id ∈ keysOf graph2) ∧
     (∀ e ∈ graph2, e ∈ graph ∨ (∀ v ∈ e.2, v ∈ keysOf graph2)) ∧
     ((keysOf graph).Nodup → (keysOf graph2).Nodup) ∧
     s2.topLevelDependencies = s.topLevelDependencies) := by
  intro fuel
  induction fuel with
  | zero =>
    intro pending s graph s2 graph2 h
    match pending, h with
    | [], h =>
      injection h with h
      injection h with h1 h2
      subst h1; subst h2
      exact ⟨⟨[], by simp⟩, by simp, fun e he => Or.inl he, fun hn => hn, rfl⟩
  | succ fuel ih =>
    intro pending s graph s2 graph2 h
    match pending with
    | [] =>
      injection h with h
      injection h with h1 h2
      subst h1; subst h2
      exact ⟨⟨[], by simp⟩, by simp, fun e he => Or.inl he, fun hn => hn, rfl⟩
    | objID :: rest =>
      simp only [collectLoop] at h
      by_cases hmem : objID ∈ keysOf graph
      · rw [if_pos hmem] at h
        obtain ⟨⟨ext, hext⟩, hpend, hentries, hnodup, htop⟩ := ih rest s graph s2 graph2 h
        refine ⟨⟨ext, hext⟩, ?_, hentries, hnodup, htop⟩
        intro id hid
        rcases List.mem_cons.mp hid with hid | hid
        · subst hid
          rw [hext, keysOf_append]
          exact List.mem_append.mpr (Or.inl hmem)
        · exact hpend id hid
      · rw [if_neg hmem] at h
        split at h
        · cases h
        case _ obj hlook =>
          split at h
          · cases h
          case _ s1 hg =>
            split at h
            · cases h
            case _ p s2' graph2' hc1 =>
              obtain ⟨⟨ext1, hext1⟩, hpend1, hentries1, hnodup1, htop1⟩ :=
                ih s1.dependencies { s1 with dependencies := [] }
                  (graph ++ [(objID, s1.dependencies)]) s2' graph2' hc1
              obtain ⟨⟨ext2, hext2⟩, hpend2, hentries2, hnodup2, htop2⟩ :=
                ih rest s2' graph2' s2 graph2 h
              have hmono : ∀ x, x ∈ keysOf graph2' → x ∈ keysOf graph2 := by
                intro x hx
                rw [hext2, keysOf_append]
                exact List.mem_append.mpr (Or.inl hx)
              refine ⟨⟨[(objID, s1.dependencies)] ++ ext1 ++ ext2, ?_⟩, ?_, ?_, ?_, ?_⟩
              · rw [hext2, hext1]
                simp
              · intro id hid
                rcases List.mem_cons.mp hid with hid | hid
                · subst hid
                  apply hmono
                  rw [hext1, keysOf_append, keysOf_append]
                  exact List.mem_append.mpr (Or.inl (List.mem_append.mpr
                    (Or.inr (by simp [keysOf]))))
                · exact hpend2 id hid
              · intro e he
                rcases hentries2 e he with he' | hok
                · rcases hentries1 e he' with he'' | hok
                  · rcases List.mem_append.mp he'' with he3 | he3
                    · exact Or.inl he3
                    · rw [List.mem_singleton] at he3
                      subst he3
                      refine Or.inr ?_
                      intro v hv
                      exact hmono v (hpend1 v hv)
                  · exact Or.inr (fun v hv => hmono v (hok v hv))
                · exact Or.inr hok
              · intro hnd
                apply hnodup2
                apply hnodup1
                rw [keysOf_append]
                simp only [keysOf, List.map_cons, List.map_nil]
                refine List.Nodup.append hnd (List.nodup_singleton _) ?_
                intro a ha hb
                rw [List.mem_singleton] at hb
                subst hb
                exact hmem ha
              · rw [htop2, htop1]
                have hgather : s1.topLevelDependencies = s.topLevelDependencies :=
                  gatherOne_frame env regDeps (regDeps obj) s s1 hg
                exact hgather

/-! ## Insertion sort used to model `sort.Slice` -/

theorem insertSorted_perm (lt : Nat → Nat → Bool) (x : Nat) (l : List Nat) :
    (insertSorted lt x l).Perm (x :: l) := by
  induction l with
  | nil => exact List.Perm.refl _
  | cons y ys ih =>
    unfold insertSorted
    by_cases h : lt x y
    · rw [if_pos h]
    · rw [if_neg h]
      exact (ih.cons y).trans (List.Perm.swap x y ys)

theorem sortByLess_perm (lt : Nat → Nat → Bool) (l : List Nat) :
    (sortByLess lt l).Perm l := by
  induction l with
  | nil => exact List.Perm.refl _
  | cons x xs ih =>
    unfold sortByLess at ih ⊢
    rw [List.foldr_cons]
    exact (insertSorted_perm lt x _).trans (ih.cons x)

/-! ## C6: cycles make `Init` fail before any hook runs -/

/-- The sorter reports the cycle error whenever the graph has a cycle. -/
theorem sort_cyclic (graph : List (Nat × List Nat)) (sortedKeys : List Nat)
    (hclosed : ClosedGraph graph) (hkeys : (keysOf graph).Nodup)
    (hperm : sortedKeys.Perm (keysOf graph))
    (hcycle : ∃ v, ReachOf graph v v) :
    StableTopologicalSortWithSortedKeys graph sortedKeys =
      .error .cyclicDependencies := by
  obtain ⟨res, hrun, hnodup, hsub, hord, hstuck, heq⟩ :=
    sort_run graph sortedKeys hclosed hkeys hperm
  have hne : res.length ≠ graph.length := by
    intro hlen
    have hcard : res.toFinset = (keysOf graph).toFinset := by
      apply Finset.eq_of_subset_of_card_le
      · intro x hx
        exact List.mem_toFinset.mpr (hsub x (List.mem_toFinset.mp hx))
      · rw [List.toFinset_card_of_nodup hkeys, List.toFinset_card_of_nodup hnodup, hlen]
        simp [keysOf]
    have hall : ∀ v ∈ keysOf graph, v ∈ res := by
      intro v hv
      have : v ∈ res.toFinset := by
        rw [hcard]
        exact List.mem_toFinset.mpr hv
      exact List.mem_toFinset.mp this
    obtain ⟨v, hv⟩ := hcycle
    have := reach_indexOf_lt hclosed hnodup hord hall v v hv
    omega
  rw [heq, if_pos hne]

/-- C6 (for stores with an ID order, as produced by `NewStore`): when the
collected dependency graph contains a cycle, `Init` returns the
cyclic-dependencies error and invokes no object's `Init` hook. -/
theorem init_cyclic_error (env : ObjEnv) (regDeps : Nat → List Nat)
    (lt : Nat → Nat → Bool) (fuel : Nat) (s s1 : StoreState)
    (graph : List (Nat × List Nat))
    (hempty : s.topLevelDependencies = [])
    (hcollect : collectDependencies env regDeps fuel
      { s with topLevelDependencies := s.dependencies } [] = some (s1, graph))
    (hassert : graph.length = s1.objects.length)
    (hpermObj : (s1.objects.map Prod.fst).Perm (keysOf graph))
    (hcycle : ∃ v, ReachOf graph v v) :
    StoreInit env regDeps (some lt) fuel s =
      (.error (.sortFailed .cyclicDependencies), []) := by
  have hG := collectLoop_graph env regDeps fuel _ _ _ _ _ hcollect
  obtain ⟨_, _, hentries, hnodupf, _⟩ := hG
  have hclosed : ClosedGraph graph := by
    intro e he v hv
    rcases hentries e he with h | h
    · simp at h
    · exact h v hv
  have hkeysnd : (keysOf graph).Nodup := hnodupf (by simp [keysOf])
  have hstabperm : (stabilityOf (some lt) s1).Perm (keysOf graph) :=
    (sortByLess_perm lt _).trans hpermObj
  have hsort := sort_cyclic graph (stabilityOf (some lt) s1) hclosed
    hkeysnd hstabperm hcycle
  unfold StoreInit
  rw [if_neg (by rw [hempty]; simp)]
  show (match collectDependencies env regDeps fuel
      { s with topLevelDependencies := s.dependencies } [] with
    | none => ((.error .outOfFuel : Except InitErr StoreState), ([] : List Nat))
    | some (s, graph) =>
      if graph.length ≠ s.objects.length then (.error .assertFailed, [])
      else
        match StableTopologicalSortWithSortedKeys graph (stabilityOf (some lt) s) with
        | .error e => (.error (.sortFailed e), [])
        | .ok sorted =>
          (.ok { s with initializationOrder := sorted.reverse }, sorted.reverse)) = _
  rw [hcollect]
  show (if graph.length ≠ s1.objects.length
      then ((.error .assertFailed : Except InitErr StoreState), ([] : List Nat))
      else
        match StableTopologicalSortWithSortedKeys graph (stabilityOf (some lt) s1) with
        | .error e => (.error (.sortFailed e), [])
        | .ok sorted =>
          (.ok { s1 with initializationOrder := sorted.reverse }, sorted.reverse)) = _
  rw [if_neg (by omega), hsort]

/-- Witness for C6: the two-object store whose objects depend on each
other. -/
theorem init_cyclic_error_witness :
    StoreInit envCyc regDepsCyc (some natLess) 10 storeCyc =
      (.error (.sortFailed .cyclicDependencies), []) := by
  have e56 : EdgeOf [(5, [6]), (6, [5])] 5 6 := by decide
  have e65 : EdgeOf [(5, [6]), (6, [5])] 6 5 := by decide
  exact init_cyclic_error envCyc regDepsCyc natLess 10 storeCyc
    ⟨[(5, 5), (6, 6)], [5, 6], [5], [5, 6, 5], [], []⟩
    [(5, [6]), (6, [5])]
    (by decide) (by decide) (by decide) (by decide)
    ⟨5, Relation.TransGen.tail (Relation.TransGen.single e56) e65⟩

/-! ## C7: a second `Init` -/

/-- C7 (amended): for every store holding at least one registered object
(non-empty pending-dependency set) on which `Init` returned successfully, a
second call to `Init` returns the already-initialized error and invokes no
object's `Init` hook. -/
theorem init_twice_error (env : ObjEnv) (regDeps : Nat → List Nat)
    (idLess : Option (Nat → Nat → Bool)) (fuel fuel2 : Nat) (s s1 : StoreState)
    (log : List Nat)
    (hne : s.dependencies ≠ [])
    (hok : StoreInit env regDeps idLess fuel s = (.ok s1, log)) :
    StoreInit env regDeps idLess fuel2 s1 = (.error .alreadyInitialized, []) := by
  unfold StoreInit at hok
  split at hok
  · simp at hok
  case _ hcond =>
    dsimp only at hok
    have hs1top : s1.topLevelDependencies = s.dependencies := by
      split at hok
      · simp at hok
      case _ p s2 graph hcol =>
        have hs2top : s2.topLevelDependencies = s.dependencies :=
          (collectLoop_graph env regDeps fuel _ _ _ _ _ hcol).2.2.2.2
        split at hok
        · simp at hok
        case _ =>
          split at hok
          · simp at hok
          case _ sorted hsort =>
            have hfst := congrArg Prod.fst hok
            simp only at hfst
            injection hfst with h
            rw [← h]
            exact hs2top
    unfold StoreInit
    rw [if_pos ?_]
    rw [hs1top]
    cases hd : s.dependencies with
    | nil => exact absurd hd hne
    | cons x xs => simp

/-- Witness for C7: a second `Init` of the basic-example store. -/
theorem init_twice_error_witness :
    StoreInit envBasic regDepsBasic (some natLess) 7
      ⟨[(0, 100), (2, 101), (1, 110)], [0, 2, 1], [0, 2], [0, 2, 1, 1], [], [1, 2, 0]⟩ =
      (.error .alreadyInitialized, []) :=
  init_twice_error envBasic regDepsBasic (some natLess) 10 7 storeBasic
    ⟨[(0, 100), (2, 101), (1, 110)], [0, 2, 1], [0, 2], [0, 2, 1, 1], [], [1, 2, 0]⟩
    [1, 2, 0] (by decide) (by decide)

/-! ## Propagation passes: flag bookkeeping lemmas -/

theorem flag_foldl_setFlag (l : List Nat) (st : TreeState) (x : Nat) :
    (l.foldl (fun st m => setFlag st m true) st).flag x =
      (st.flag x || decide (x ∈ l)) := by
  induction l generalizing st with
  | nil => simp
  | cons m l ih =>
    rw [List.foldl_cons, ih]
    by_cases hx : x = m <;> simp [setFlag, hx]

theorem updated_foldl_setFlag (l : List Nat) (st : TreeState) :
    (l.foldl (fun st m => setFlag st m true) st).updated = st.updated ∧
    (l.foldl (fun st m => setFlag st m true) st).cache = st.cache ∧
    (l.foldl (fun st m => setFlag st m true) st).log = st.log := by
  induction l generalizing st with
  | nil => exact ⟨rfl, rfl, rfl⟩
  | cons m l ih => exact ih (setFlag st m true)

theorem updated_foldl_clear (l : List Nat) (st : TreeState) (x : Nat) :
    (l.foldl (fun st m => setUpdated st m false) st).updated x =
      if x ∈ l then false else st.updated x := by
  induction l generalizing st with
  | nil => simp
  | cons m l ih =>
    rw [List.foldl_cons, ih]
    by_cases hxl : x ∈ l
    · simp [hxl]
    · by_cases hxm : x = m <;> simp [setUpdated, hxl, hxm]

theorem fields_foldl_setUpdated (l : List Nat) (st : TreeState) :
    (l.foldl (fun st m => setUpdated st m false) st).flag = st.flag ∧
    (l.foldl (fun st m => setUpdated st m false) st).cache = st.cache ∧
    (l.foldl (fun st m => setUpdated st m false) st).log = st.log := by
  induction l generalizing st with
  | nil => exact ⟨rfl, rfl, rfl⟩
  | cons m l ih => exact ih (setUpdated st m false)

/-- A re-entrant `NotifyUpdated` on a node whose `subscriptionUpdated` flag
is set returns early: it only records the update and flags the node's
subscribers. -/
theorem exec_notify_flagged (subs targets : Nat → List Nat) (fuel m : Nat)
    (st : TreeState) (hfl : st.flag m = true) (hms : m ∉ subs m) :
    exec subs targets (fuel + 1) (.notify m) st =
      some (notifySubscribers subs m (setUpdated st m true)) := by
  have hcond : (notifySubscribers subs m (setUpdated st m true)).flag m = true := by
    rw [show (notifySubscribers subs m (setUpdated st m true)).flag m =
        ((setUpdated st m true).flag m || decide (m ∈ subs m)) from
      flag_foldl_setFlag (subs m) _ m]
    simp [setUpdated, hfl, hms]
  simp only [exec]
  rw [if_pos hcond]

/-- A handler whose every target is its own (currently firing, hence
flagged) node: each notification returns early, so the handler only flags
that node's subscribers (when it notifies at all) and changes nothing
else. -/
theorem exec_targets_self (subs targets : Nat → List Nat) (m : Nat) :
    ∀ (ts : List Nat) (fuel : Nat) (st : TreeState),
      ts.length < fuel → (∀ t ∈ ts, t = m) → st.flag m = true → m ∉ subs m →
      ∃ st2, exec subs targets fuel (.targetsC ts) st = some st2 ∧
        st2.log = st.log ∧ st2.cache = st.cache ∧
        (∀ x, st.flag x = true → st2.flag x = true) ∧
        (∀ x, st2.flag x = true → st.flag x = true ∨ x ∈ subs m) ∧
        (ts ≠ [] → ∀ t ∈ subs m, st2.flag t = true) ∧
        st2.flag m = true := by
  intro ts
  induction ts with
  | nil =>
    intro fuel st hfuel _ hfl _
    match fuel, hfuel with
    | fuel + 1, _ =>
      exact ⟨st, rfl, rfl, rfl, fun _ h => h, fun _ h => .inl h,
        fun h => absurd rfl h, hfl⟩
  | cons t ts ih =>
    intro fuel st hfuel hts hfl hms
    match fuel, hfuel with
    | fuel + 1, hfuel =>
      have htm : t = m := hts t (by simp)
      subst htm
      have hpos : 0 < fuel := by
        have : ts.length + 1 < fuel + 1 := by simpa using hfuel
        omega
      have hnot : exec subs targets fuel (.notify t) st =
          some (notifySubscribers subs t (setUpdated st t true)) := by
        match fuel, hpos with
        | fuel + 1, _ => exact exec_notify_flagged subs targets fuel t st hfl hms
      have hflag1 : ∀ x, (notifySubscribers subs t (setUpdated st t true)).flag x =
          (st.flag x || decide (x ∈ subs t)) :=
        fun x => flag_foldl_setFlag (subs t) _ x
      have hfields := updated_foldl_setFlag (subs t) (setUpdated st t true)
      have hfl1 : (notifySubscribers subs t (setUpdated st t true)).flag t = true := by
        rw [hflag1]; simp [hms, hfl]
      obtain ⟨st2, hrun, hlog2, hcache2, hmono2, horig2, hsubs2, hflm2⟩ :=
        ih fuel (notifySubscribers subs t (setUpdated st t true))
          (by simp at hfuel; omega)
          (fun x hx => hts x (List.mem_cons_of_mem _ hx)) hfl1 hms
      refine ⟨st2, ?_, ?_, ?_, ?_, ?_, ?_, hflm2⟩
      · simp only [exec]
        rw [hnot]
        exact hrun
      · rw [hlog2]; exact hfields.2.2
      · rw [hcache2]; exact hfields.2.1
      · intro x hx
        refine hmono2 x ?_
        rw [hflag1]; simp [hx]
      · intro x hx
        rcases horig2 x hx with h1 | hxs
        · have : (st.flag x || decide (x ∈ subs t)) = true := by rw [← hflag1]; exact h1
          rcases Bool.or_eq_true_iff.mp this with h | h
          · exact .inl h
          · exact .inr (by simpa using h)
        · exact .inr hxs
      · intro _ u hu
        refine hmono2 u ?_
        rw [hflag1]; simp [hu]

/-- The handler sweep of `processUpdate` over a duplicate-free,
forward-closed suffix of the cached order, when every handler notifies only
its own node: it appends to the log exactly the members whose flag is (or
becomes) set, in suffix order, fires the subscribers of every re-entrantly
self-notifying fired node, and leaves every member's flag clear. -/
theorem sweep_self (subs targets : Nat → List Nat)
    (Hself : ∀ k, ∀ t ∈ targets k, t = k) :
    ∀ (sfx : List Nat) (fuel T : Nat) (st : TreeState),
      sfx.Nodup →
      (∀ l1 m l2, sfx = l1 ++ m :: l2 → ∀ t ∈ subs m, t ∈ l2) →
      (∀ m ∈ sfx, (targets m).length ≤ T) →
      sfx.length + T < fuel →
      ∃ st2 L, exec subs targets fuel (.sweepC sfx) st = some st2 ∧
        st2.log = st.log ++ L ∧
        L.Sublist sfx ∧
        (∀ m ∈ sfx, st.flag m = true → m ∈ L) ∧
        (∀ m ∈ L, targets m ≠ [] → ∀ t ∈ subs m, t ∈ L) ∧
        (∀ m ∈ sfx, st2.flag m = false) ∧
        (∀ x, st2.flag x = true → st.flag x = true ∨ ∃ m ∈ L, x ∈ subs m) ∧
        st2.cache = st.cache := by
  intro sfx
  induction sfx with
  | nil =>
    intro fuel T st _ _ _ hfuel
    match fuel, hfuel with
    | fuel + 1, _ =>
      exact ⟨st, [], rfl, by simp, List.nil_sublist _, by simp, by simp, by simp,
        fun _ h => .inl h, rfl⟩
  | cons m rest ih =>
    intro fuel T st hnd hcl hT hfuel
    match fuel, hfuel with
    | fuel + 1, hfuel =>
      have hndc := List.nodup_cons.mp hnd
      have hmr : m ∉ rest := hndc.1
      have hndr : rest.Nodup := hndc.2
      have hclr : ∀ l1 m2 l2, rest = l1 ++ m2 :: l2 → ∀ t ∈ subs m2, t ∈ l2 := by
        intro l1 m2 l2 heq t ht
        exact hcl (m :: l1) m2 l2 (by rw [heq]; rfl) t ht
      have hsubm : ∀ t ∈ subs m, t ∈ rest := fun t ht => hcl [] m rest rfl t ht
      have hmm : m ∉ subs m := fun h => hmr (hsubm m h)
      have hsubsrest : ∀ m2 ∈ rest, ∀ t ∈ subs m2, t ∈ rest := by
        intro m2 hm2 t ht
        obtain ⟨l1, l2, heq⟩ := List.append_of_mem hm2
        rw [heq]
        exact List.mem_append.mpr (.inr (List.mem_cons_of_mem _ (hclr l1 m2 l2 heq t ht)))
      have hfr : rest.length + T < fuel := by
        have : rest.length + 1 + T < fuel + 1 := by simpa using hfuel
        omega
      have hTr : ∀ m2 ∈ rest, (targets m2).length ≤ T :=
        fun m2 hm2 => hT m2 (List.mem_cons_of_mem _ hm2)
      by_cases hfl : st.flag m = true
      · have hTm : (targets m).length ≤ T := hT m (by simp)
        obtain ⟨st2, hrun2, hlog2, hcache2, hmono2, horig2, hsubs2, hflm2⟩ :=
          exec_targets_self subs targets m (targets m) fuel
            { st with log := st.log ++ [m] } (by omega) (Hself m) hfl hmm
        obtain ⟨st4, L4, hrun4, hlog4, hsub4, hhit4, hsubsL4, hclear4, horigin4, hcache4⟩ :=
          ih fuel T (setFlag st2 m false) hndr hclr hTr hfr
        refine ⟨st4, m :: L4, ?_, ?_, ?_, ?_, ?_, ?_, ?_, ?_⟩
        · simp only [exec]
          rw [if_pos hfl, hrun2]
          exact hrun4
        · rw [hlog4]
          rw [show (setFlag st2 m false).log = st2.log from rfl, hlog2]
          simp
        · exact List.cons_sublist_cons.mpr hsub4
        · intro m2 hm2 hflm2x
          rcases List.mem_cons.mp hm2 with rfl | hm2r
          · exact List.mem_cons_self _ _
          · have hne : m2 ≠ m := fun h => hmr (h ▸ hm2r)
            have h2 : st2.flag m2 = true := hmono2 m2 hflm2x
            have h3 : (setFlag st2 m false).flag m2 = true := by
              show (if m2 = m then false else st2.flag m2) = true
              rw [if_neg hne]; exact h2
            exact List.mem_cons_of_mem _ (hhit4 m2 hm2r h3)
        · intro m2 hm2 htne t ht
          rcases List.mem_cons.mp hm2 with rfl | hm2L
          · have hflt : st2.flag t = true := hsubs2 htne t ht
            have htr : t ∈ rest := hsubm t ht
            have hne : t ≠ m2 := fun h => hmr (h ▸ htr)
            have h3 : (setFlag st2 m2 false).flag t = true := by
              show (if t = m2 then false else st2.flag t) = true
              rw [if_neg hne]; exact hflt
            exact List.mem_cons_of_mem _ (hhit4 t htr h3)
          · exact List.mem_cons_of_mem _ (hsubsL4 m2 hm2L htne t ht)
        · intro m2 hm2
          rcases List.mem_cons.mp hm2 with rfl | hm2r
          · by_cases h4 : st4.flag m2 = true
            · rcases horigin4 m2 h4 with h3 | ⟨w, hwL, hw⟩
              · exact absurd h3 (by
                  show ¬ (if m2 = m2 then false else st2.flag m2) = true
                  simp)
              · exact absurd (hsubsrest w (hsub4.subset hwL) m2 hw) (by
                  intro hc; exact hmr hc)
            · exact Bool.eq_false_iff.mpr h4
          · exact hclear4 m2 hm2r
        · intro x hx
          rcases horigin4 x hx with h3 | ⟨w, hwL, hw⟩
          · by_cases hxm : x = m
            · exact absurd h3 (by
                subst hxm
                show ¬ (if x = x then false else st2.flag x) = true
                simp)
            · have h2 : st2.flag x = true := by
                have hh : (if x = m then false else st2.flag x) = true := h3
                rwa [if_neg hxm] at hh
              rcases horig2 x h2 with h1 | hxs
              · exact .inl h1
              · exact .inr ⟨m, List.mem_cons_self _ _, hxs⟩
          · exact .inr ⟨w, List.mem_cons_of_mem _ hwL, hw⟩
        · rw [hcache4]
          exact hcache2
      · obtain ⟨st4, L4, hrun4, hlog4, hsub4, hhit4, hsubsL4, hclear4, horigin4, hcache4⟩ :=
          ih fuel T (setFlag st m false) hndr hclr hTr hfr
        refine ⟨st4, L4, ?_, ?_, ?_, ?_, hsubsL4, ?_, ?_, hcache4⟩
        · simp only [exec]
          rw [if_neg hfl]
          exact hrun4
        · rw [hlog4]; rfl
        · exact hsub4.trans (List.sublist_cons_self _ _)
        · intro m2 hm2 hflm2x
          rcases List.mem_cons.mp hm2 with rfl | hm2r
          · exact absurd hflm2x hfl
          · have hne : m2 ≠ m := fun h => hmr (h ▸ hm2r)
            have h3 : (setFlag st m false).flag m2 = true := by
              show (if m2 = m then false else st.flag m2) = true
              rw [if_neg hne]; exact hflm2x
            exact hhit4 m2 hm2r h3
        · intro m2 hm2
          rcases List.mem_cons.mp hm2 with rfl | hm2r
          · by_cases h4 : st4.flag m2 = true
            · rcases horigin4 m2 h4 with h3 | ⟨w, hwL, hw⟩
              · exact absurd h3 (by
                  show ¬ (if m2 = m2 then false else st.flag m2) = true
                  simp)
              · exact absurd (hsubsrest w (hsub4.subset hwL) m2 hw) hmr
            · exact Bool.eq_false_iff.mpr h4
          · exact hclear4 m2 hm2r
        · intro x hx
          rcases horigin4 x hx with h3 | ⟨w, hwL, hw⟩
          · by_cases hxm : x = m
            · exact absurd h3 (by
                subst hxm
                show ¬ (if x = x then false else st.flag x) = true
                simp)
            · have h2 : st.flag x = true := by
                have hh : (if x = m then false else st.flag x) = true := h3
                rwa [if_neg hxm] at hh
              exact .inl h2
          · exact .inr ⟨w, hwL, hw⟩

theorem forwardClosed_tail {subs : Nat → List Nat} {a : Nat} {l : List Nat}
    (h : ForwardClosed subs (a :: l)) : ForwardClosed subs l := by
  intro i t ht
  exact h ⟨i.1 + 1, Nat.succ_lt_succ i.2⟩ t ht

theorem forwardClosed_decomp {subs : Nat → List Nat} :
    ∀ (l1 : List Nat) {m : Nat} {l2 order : List Nat},
      ForwardClosed subs order → order = l1 ++ m :: l2 → ∀ t ∈ subs m, t ∈ l2 := by
  intro l1
  induction l1 with
  | nil =>
    intro m l2 order h heq t ht
    subst heq
    exact h ⟨0, by simp⟩ t ht
  | cons a l1 ih =>
    intro m l2 order h heq t ht
    subst heq
    exact ih (forwardClosed_tail h) rfl t ht

/-- A full propagation pass from a root whose update order is already
cached: the `NotifyUpdated` entry call flags the root's subscribers, runs
the sweep over the cached order, and finally clears the `updated` flags of
every member of the order.  Under re-entrant self-notification the pass
returns, its log is a duplicate-free selection of the order containing
every direct subscriber of the root, re-entrantly self-notifying fired
nodes have their subscribers fired, and every member of the order ends with
both scratch flags clear. -/
theorem pass_run (subs targets : Nat → List Nat) (r : Nat) (order : List Nat)
    (T : Nat) (st : TreeState) (f : Nat)
    (Hself : ∀ k, ∀ t ∈ targets k, t = k)
    (hcache : st.cache r = some order)
    (hnd : order.Nodup) (hfc : ForwardClosed subs order) (hr : r ∈ order)
    (hflr : st.flag r = false)
    (hT : ∀ m ∈ order, (targets m).length ≤ T)
    (hfuel : order.length + T < f) :
    ∃ st2 L,
      notifyUpd subs targets (f + 2) r st = some st2 ∧
      st2.log = st.log ++ L ∧
      L.Sublist order ∧
      (∀ t ∈ subs r, t ∈ L) ∧
      (∀ m ∈ order, st.flag m = true → m ∈ L) ∧
      (∀ m ∈ L, targets m ≠ [] → ∀ t ∈ subs m, t ∈ L) ∧
      (∀ m ∈ order, st2.flag m = false ∧ st2.updated m = false) := by
  obtain ⟨l1, l2, horder⟩ := List.append_of_mem hr
  have hndrl2 : (r :: l2).Nodup := List.Nodup.of_append_right (horder ▸ hnd)
  have hrl2 : r ∉ l2 := (List.nodup_cons.mp hndrl2).1
  have hsubr : ∀ t ∈ subs r, t ∈ l2 := fun t ht => forwardClosed_decomp l1 hfc horder t ht
  have hrr : r ∉ subs r := fun h => hrl2 (hsubr r h)
  have hsubro : ∀ t ∈ subs r, t ∈ order := by
    intro t ht
    rw [horder]
    exact List.mem_append.mpr (.inr (List.mem_cons_of_mem _ (hsubr t ht)))
  have hbflag : ∀ x, (notifySubscribers subs r (setUpdated st r true)).flag x =
      (st.flag x || decide (x ∈ subs r)) := fun x => flag_foldl_setFlag (subs r) _ x
  have hbfr : (notifySubscribers subs r (setUpdated st r true)).flag r = false := by
    rw [hbflag]; simp [hflr, hrr]
  have hbcachef : (notifySubscribers subs r (setUpdated st r true)).cache = st.cache :=
    (updated_foldl_setFlag (subs r) (setUpdated st r true)).2.1
  have hblog : (notifySubscribers subs r (setUpdated st r true)).log = st.log :=
    (updated_foldl_setFlag (subs r) (setUpdated st r true)).2.2
  have hbcache : (notifySubscribers subs r (setUpdated st r true)).cache r = some order := by
    rw [hbcachef]; exact hcache
  obtain ⟨st3, L, hsweep, hlog3, hsubL, hhit3, hsubsL3, hclear3, _horigin3, _hcache3⟩ :=
    sweep_self subs targets Hself order f T (notifySubscribers subs r (setUpdated st r true))
      hnd (fun a b c hd => forwardClosed_decomp a hfc hd) hT hfuel
  refine ⟨order.foldl (fun st m => setUpdated st m false) st3, L, ?_, ?_, hsubL, ?_, ?_,
    hsubsL3, ?_⟩
  · show exec subs targets (f + 2) (.notify r) st = _
    simp only [exec]
    rw [if_neg (show ¬ (notifySubscribers subs r (setUpdated st r true)).flag r = true by
      simp [hbfr])]
    rw [hbcache]
    show (match exec subs targets f (.sweepC order)
        (notifySubscribers subs r (setUpdated st r true)) with
      | none => none
      | some st => some (order.foldl (fun st m => setUpdated st m false) st)) = _
    rw [hsweep]
  · rw [(fields_foldl_setUpdated order st3).2.2, hlog3, hblog]
  · intro t ht
    refine hhit3 t (hsubro t ht) ?_
    rw [hbflag]; simp [ht]
  · intro m hm hflm
    refine hhit3 m hm ?_
    rw [hbflag]; simp [hflm]
  · intro m hm
    constructor
    · rw [show (order.foldl (fun st m => setUpdated st m false) st3).flag = st3.flag from
        (fields_foldl_setUpdated order st3).1]
      exact hclear3 m hm
    · rw [updated_foldl_clear]
      simp [hm]

/-- C2 (amended): during a propagation pass started by `NotifyUpdated` on a
root whose duplicate-free, forward-closed update order is cached, with every
handler re-entrantly notifying only its own node, each handler fires at most
once and in an order consistent with the subscription DAG (the invocation
log is a duplicate-free sublist of the cached order); every direct
subscriber of the root fires, and a node that fires and re-entrantly
notifies itself fires exactly once. -/
theorem handlers_fire_once (subs targets : Nat → List Nat) (r : Nat)
    (order : List Nat) (T fuel : Nat) (st : TreeState)
    (Hself : ∀ k, ∀ t ∈ targets k, t = k)
    (hcache : st.cache r = some order)
    (hnd : order.Nodup) (hfc : ForwardClosed subs order) (hr : r ∈ order)
    (hflags : ∀ x, st.flag x = false) (hlog : st.log = [])
    (hT : ∀ m ∈ order, (targets m).length ≤ T)
    (hfuel : order.length + T + 2 < fuel) :
    ∃ st2, notifyUpd subs targets fuel r st = some st2 ∧
      st2.log.Sublist order ∧
      (∀ m, st2.log.count m ≤ 1) ∧
      (∀ t ∈ subs r, t ∈ st2.log) ∧
      (∀ m ∈ st2.log, targets m ≠ [] → st2.log.count m = 1) := by
  obtain ⟨f, rfl⟩ : ∃ f, fuel = f + 2 := ⟨fuel - 2, by omega⟩
  obtain ⟨st2, L, hrun, hlog2, hsubL, hsubr, _hhit, _hsubsL, _hclear⟩ :=
    pass_run subs targets r order T st f Hself hcache hnd hfc hr (hflags r) hT (by omega)
  have hlogL : st2.log = L := by rw [hlog2, hlog]; rfl
  have hsub2 : st2.log.Sublist order := by rw [hlogL]; exact hsubL
  have hndL : st2.log.Nodup := hsub2.nodup hnd
  refine ⟨st2, hrun, hsub2, ?_, ?_, ?_⟩
  · intro m
    exact List.nodup_iff_count_le_one.mp hndL m
  · intro t ht
    rw [hlogL]
    exact hsubr t ht
  · intro m hm _
    exact List.count_eq_one_of_mem hndL hm

theorem handlers_fire_once_witness :
    ∃ st2, notifyUpd subsChain targetsSelf 7 0 stChainCached = some st2 ∧
      st2.log.Sublist [0, 1, 2] ∧
      (∀ m, st2.log.count m ≤ 1) ∧
      (∀ t ∈ subsChain 0, t ∈ st2.log) ∧
      (∀ m ∈ st2.log, targetsSelf m ≠ [] → st2.log.count m = 1) :=
  handlers_fire_once subsChain targetsSelf 0 [0, 1, 2] 1 7 stChainCached
    (by intro k t ht; by_cases hk : k = 1 <;> simp_all [targetsSelf])
    rfl (by decide) (by decide) (by decide) (fun _ => rfl) rfl (by decide) (by decide)

/-! ## Well-formedness of computed update orders

`getUpdateOrder` always produces a duplicate-free order that contains its
node and lists every node before all of its subscribers.  This is the key
to handling passes whose handlers notify arbitrary nodes: every nested pass
sweeps a well-formed order of its own. -/

theorem mem_foldl_insertIfAbsent : ∀ (l acc : List Nat) (x : Nat),
    x ∈ l.foldl insertIfAbsent acc ↔ x ∈ acc ∨ x ∈ l := by
  intro l
  induction l with
  | nil => intro acc x; simp
  | cons a l ih =>
    intro acc x
    rw [List.foldl_cons, ih]
    unfold insertIfAbsent
    by_cases ha : a ∈ acc
    · rw [if_pos ha]
      simp only [List.mem_cons]
      constructor
      · rintro (h | h)
        · exact .inl h
        · exact .inr (.inr h)
      · rintro (h | h | h)
        · exact .inl h
        · exact .inl (by rw [h]; exact ha)
        · exact .inr h
    · rw [if_neg ha]
      simp only [List.mem_cons, List.mem_append]
      constructor
      · rintro ((h | h | h) | h)
        · exact .inl h
        · exact .inr (.inl h)
        · exact absurd h (by simp)
        · exact .inr (.inr h)
      · rintro (h | h | h)
        · exact .inl (.inl h)
        · exact .inl (.inr (.inl h))
        · exact .inr h

theorem nodup_foldl_insertIfAbsent : ∀ (l acc : List Nat), acc.Nodup →
    (l.foldl insertIfAbsent acc).Nodup := by
  intro l
  induction l with
  | nil => intro acc h; exact h
  | cons a l ih =>
    intro acc h
    rw [List.foldl_cons]
    refine ih _ ?_
    unfold insertIfAbsent
    by_cases ha : a ∈ acc
    · rw [if_pos ha]; exact h
    · rw [if_neg ha]
      refine List.Nodup.append h (by simp) ?_
      intro x hx hxa
      have hxe : x = a := by simpa using hxa
      exact ha (by rw [← hxe]; exact hx)

theorem mem_Uniq (l : List Nat) (x : Nat) : x ∈ Uniq l ↔ x ∈ l := by
  unfold Uniq
  rw [mem_foldl_insertIfAbsent]
  simp

theorem nodup_Uniq (l : List Nat) : (Uniq l).Nodup :=
  nodup_foldl_insertIfAbsent l [] (by simp)

theorem keysOf_foldl_dedup : ∀ (l acc : List (Nat × List Nat)),
    keysOf (l.foldl (fun acc e => if e.1 ∈ keysOf acc then acc else acc ++ [e]) acc) =
      (l.map Prod.fst).foldl insertIfAbsent (keysOf acc) := by
  intro l
  induction l with
  | nil => intro acc; rfl
  | cons e l ih =>
    intro acc
    rw [List.foldl_cons, List.map_cons, List.foldl_cons, ih]
    congr 1
    unfold insertIfAbsent
    by_cases he : e.1 ∈ keysOf acc
    · rw [if_pos he, if_pos he]
    · rw [if_neg he, if_neg he, keysOf_append]
      rfl

theorem keysOf_dedupKeys (l : List (Nat × List Nat)) :
    keysOf (dedupKeys l) = Uniq (keysOf l) := by
  unfold dedupKeys Uniq
  rw [keysOf_foldl_dedup]
  rfl

theorem mem_foldl_dedup : ∀ (l acc : List (Nat × List Nat)) (e : Nat × List Nat),
    e ∈ l.foldl (fun acc e => if e.1 ∈ keysOf acc then acc else acc ++ [e]) acc →
    e ∈ acc ∨ e ∈ l := by
  intro l
  induction l with
  | nil => intro acc e h; exact .inl h
  | cons e2 l ih =>
    intro acc e h
    rw [List.foldl_cons] at h
    rcases ih _ e h with h1 | h1
    · by_cases h2 : e2.1 ∈ keysOf acc
      · rw [if_pos h2] at h1
        exact .inl h1
      · rw [if_neg h2] at h1
        rcases List.mem_append.mp h1 with h3 | h3
        · exact .inl h3
        · have he2 : e = e2 := by simpa using h3
          exact .inr (by rw [he2]; exact List.mem_cons_self e2 l)
    · exact .inr (List.mem_cons_of_mem _ h1)

theorem mem_dedupKeys {l : List (Nat × List Nat)} {e : Nat × List Nat}
    (h : e ∈ dedupKeys l) : e ∈ l := by
  rcases mem_foldl_dedup l [] e h with h1 | h1
  · simp at h1
  · exact h1

/-- In a graph whose every entry lists exactly the subscribers of its key,
adjacency lookup of a present key returns that key's subscribers. -/
theorem lookupAdj_uniform {subs : Nat → List Nat} {g : List (Nat × List Nat)}
    (h : ∀ e ∈ g, e.2 = subs e.1) {m : Nat} (hm : m ∈ keysOf g) :
    lookupAdj g m = subs m := by
  unfold lookupAdj
  cases hf : g.find? (fun e => e.1 == m) with
  | none =>
    exfalso
    obtain ⟨e, he, hem⟩ := List.mem_map.mp hm
    have hnone := List.find?_eq_none.mp hf e he
    simp [hem] at hnone
  | some e =>
    have hmem := List.mem_of_find?_eq_some hf
    have hpred : e.1 = m := by simpa using List.find?_some hf
    have h2 := h e hmem
    rw [hpred] at h2
    exact h2

theorem walk_entries (subs : Nat → List Nat) : ∀ (fuel : Nat) (wl : List Nat)
    (dest deps : List (Nat × List Nat)),
    (∀ e ∈ dest, e.2 = subs e.1) →
    getDepsWalk subs fuel wl dest = some deps →
    ∀ e ∈ deps, e.2 = subs e.1 := by
  intro fuel
  induction fuel with
  | zero =>
    intro wl dest deps hd hw
    cases wl with
    | nil =>
      have h2 : dest = deps := Option.some.inj hw
      subst h2
      exact hd
    | cons n rest => exact Option.noConfusion (show (none : Option _) = some deps from hw)
  | succ fuel ih =>
    intro wl dest deps hd hw
    cases wl with
    | nil =>
      have h2 : dest = deps := Option.some.inj hw
      subst h2
      exact hd
    | cons n rest =>
      refine ih (subs n ++ rest) (dest ++ [(n, subs n)]) deps ?_ hw
      intro e he
      rcases List.mem_append.mp he with h1 | h1
      · exact hd e h1
      · have he2 : e = (n, subs n) := by simpa using h1
        rw [he2]

theorem walk_closure (subs : Nat → List Nat) : ∀ (fuel : Nat) (wl : List Nat)
    (dest deps : List (Nat × List Nat)),
    (∀ e ∈ dest, ∀ t ∈ e.2, t ∈ keysOf dest ∨ t ∈ wl) →
    getDepsWalk subs fuel wl dest = some deps →
    (∀ x ∈ wl, x ∈ keysOf deps) ∧ (∀ x ∈ keysOf dest, x ∈ keysOf deps) ∧
      (∀ e ∈ deps, ∀ t ∈ e.2, t ∈ keysOf deps) := by
  intro fuel
  induction fuel with
  | zero =>
    intro wl dest deps hd hw
    cases wl with
    | nil =>
      have h2 : dest = deps := Option.some.inj hw
      subst h2
      refine ⟨by simp, fun x hx => hx, ?_⟩
      intro e he t ht
      rcases hd e he t ht with h | h
      · exact h
      · simp at h
    | cons n rest => exact Option.noConfusion (show (none : Option _) = some deps from hw)
  | succ fuel ih =>
    intro wl dest deps hd hw
    cases wl with
    | nil =>
      have h2 : dest = deps := Option.some.inj hw
      subst h2
      refine ⟨by simp, fun x hx => hx, ?_⟩
      intro e he t ht
      rcases hd e he t ht with h | h
      · exact h
      · simp at h
    | cons n rest =>
      have hrec := ih (subs n ++ rest) (dest ++ [(n, subs n)]) deps ?_ hw
      · obtain ⟨hw1, hw2, hw3⟩ := hrec
        refine ⟨?_, ?_, hw3⟩
        · intro x hx
          rcases List.mem_cons.mp hx with rfl | h2
          · exact hw2 x (by rw [keysOf_append]; simp [keysOf])
          · exact hw1 x (List.mem_append.mpr (.inr h2))
        · intro x hx
          exact hw2 x (by rw [keysOf_append]; exact List.mem_append.mpr (.inl hx))
      · intro e he t ht
        rcases List.mem_append.mp he with h1 | h1
        · rcases hd e h1 t ht with h | h
          · exact .inl (by rw [keysOf_append]; exact List.mem_append.mpr (.inl h))
          · rcases List.mem_cons.mp h with rfl | h2
            · exact .inl (by rw [keysOf_append]; simp [keysOf])
            · exact .inr (List.mem_append.mpr (.inr h2))
        · have he2 : e = (n, subs n) := by simpa using h1
          subst he2
          exact .inr (List.mem_append.mpr (.inl (by simpa using ht)))

/-- When the stable topological sorter succeeds on a closed graph, its
output is duplicate-free, covers every vertex, and places every
in-neighbour of a vertex strictly before it. -/
theorem sorter_ok_props {graph : List (Nat × List Nat)} {sortedKeys o : List Nat}
    (hclosed : ClosedGraph graph) (hkeys : (keysOf graph).Nodup)
    (hperm : sortedKeys.Perm (keysOf graph))
    (hok : StableTopologicalSortWithSortedKeys graph sortedKeys = .ok o) :
    o.Nodup ∧ (∀ x ∈ keysOf graph, x ∈ o) ∧ (∀ x ∈ o, x ∈ keysOf graph) ∧
      (∀ l1 v l2, o = l1 ++ v :: l2 → ∀ u, EdgeOf graph u v → u ∈ l1) := by
  obtain ⟨res, _hrun, hnd, hsub, hedge, _hstuck, heq⟩ :=
    sort_run graph sortedKeys hclosed hkeys hperm
  rw [hok] at heq
  by_cases hlen : res.length ≠ graph.length
  · rw [if_pos hlen] at heq
    exact absurd heq (by simp)
  · rw [if_neg hlen] at heq
    have ho : o = res := Except.ok.inj heq
    subst ho
    push_neg at hlen
    have hklen : (keysOf graph).length = graph.length := by simp [keysOf]
    have hresperm : o.Perm (keysOf graph) := by
      refine List.Subperm.perm_of_length_le (List.subperm_of_subset hnd ?_) (by omega)
      intro x hx
      exact hsub x hx
    exact ⟨hnd, fun x hx => hresperm.mem_iff.mpr hx, hsub, hedge⟩

/-- `getUpdateOrder` output is well formed: duplicate-free, containing its
node, and listing every node before all of its subscribers. -/
theorem getUpdateOrder_wf (subs : Nat → List Nat) (fuel n : Nat) (o : List Nat)
    (h : getUpdateOrder subs fuel n = some o) :
    o.Nodup ∧ ForwardClosed subs o ∧ n ∈ o := by
  unfold getUpdateOrder at h
  cases hw : getDepsWalk subs fuel [n] [] with
  | none => rw [hw] at h; exact Option.noConfusion h
  | some deps =>
    rw [hw] at h
    dsimp only at h
    have hent : ∀ e ∈ deps, e.2 = subs e.1 :=
      walk_entries subs fuel [n] [] deps (by simp) hw
    have hclo := walk_closure subs fuel [n] [] deps (by simp) hw
    have hn : n ∈ keysOf deps := hclo.1 n (by simp)
    have hkeysd : keysOf (dedupKeys deps) = Uniq (keysOf deps) := keysOf_dedupKeys deps
    have hknd : (keysOf (dedupKeys deps)).Nodup := by
      rw [hkeysd]; exact nodup_Uniq _
    have hmemk : ∀ x, x ∈ keysOf (dedupKeys deps) ↔ x ∈ keysOf deps := by
      intro x; rw [hkeysd, mem_Uniq]
    have hentd : ∀ e ∈ dedupKeys deps, e.2 = subs e.1 :=
      fun e he => hent e (mem_dedupKeys he)
    have hcld : ClosedGraph (dedupKeys deps) := by
      intro e he t ht
      rw [hmemk t]
      have h1 := hent e (mem_dedupKeys he)
      exact hclo.2.2 e (mem_dedupKeys he) t ht
    have hperm : (Uniq (deps.map Prod.fst)).Perm (keysOf (dedupKeys deps)) := by
      rw [hkeysd]
      exact List.Perm.refl _
    cases hs : StableTopologicalSortWithSortedKeys (dedupKeys deps)
        (Uniq (deps.map Prod.fst)) with
    | error e =>
      rw [hs] at h
      exact Option.noConfusion h
    | ok o2 =>
      rw [hs] at h
      have ho : o2 = o := Option.some.inj h
      subst ho
      obtain ⟨hnd, hall, hsubk, hedge⟩ := sorter_ok_props hcld hknd hperm hs
      refine ⟨hnd, ?_, hall n (by rw [hmemk]; exact hn)⟩
      intro i t ht
      have hm : o2.get i ∈ o2 := List.get_mem o2 i.1 i.2
      have hmk : o2.get i ∈ keysOf (dedupKeys deps) := hsubk _ hm
      have hadj : lookupAdj (dedupKeys deps) (o2.get i) = subs (o2.get i) :=
        lookupAdj_uniform hentd hmk
      have hedge2 : EdgeOf (dedupKeys deps) (o2.get i) t := by
        unfold EdgeOf
        rw [hadj]
        exact ht
      have htk : t ∈ keysOf (dedupKeys deps) :=
        lookupAdj_subset_keys hcld _ t (by rw [hadj]; exact ht)
      have hto : t ∈ o2 := hall t htk
      obtain ⟨l1, l2, hdec⟩ := List.append_of_mem hto
      subst hdec
      have hm1 : (l1 ++ t :: l2).get i ∈ l1 := hedge l1 t l2 rfl _ hedge2
      have hilen : i.1 < l1.length := by
        by_contra hcon
        push_neg at hcon
        have hdisj : l1.Disjoint (t :: l2) := List.disjoint_of_nodup_append hnd
        have hmem2 : (l1 ++ t :: l2).get i ∈ t :: l2 := by
          rw [List.get_eq_getElem, List.getElem_append_right hcon]
          exact List.getElem_mem _
        exact hdisj hm1 hmem2
      rw [List.drop_append_eq_append_drop]
      refine List.mem_append.mpr (.inr ?_)
      rw [show i.1 + 1 - l1.length = 0 from by omega]
      exact List.mem_cons_self _ _

/-! ## The flag-coverage invariant of a propagation pass

`pend` collects the pending suffixes of all active handler sweeps.  Every
raised flag lies in `pend` (a flagged node is always still awaiting a visit
from some running sweep, which will clear it), every cached order stays
well formed, and at the return of the outermost call — where no sweep is
active — no flag is raised at all.  Handlers may notify arbitrary nodes;
the only structural assumption is that no node subscribes to itself. -/

theorem exec_covered (subs targets : Nat → List Nat) (Hirr : ∀ k, k ∉ subs k) :
    ∀ (fuel : Nat) (call : Call) (st : TreeState) (pend : List Nat) (st2 : TreeState),
      (∀ t ∈ pend, ∀ u ∈ subs t, u ∈ pend) →
      CacheWF subs st →
      (match call with
       | .notify _ => FlagsIn st pend
       | .process n => ∀ x, st.flag x = true → x ∈ pend ∨ x ∈ subs n
       | .sweepC sfx => FlagsIn st (sfx ++ pend) ∧
           (∀ l1 m l2, sfx = l1 ++ m :: l2 → ∀ u ∈ subs m, u ∈ l2 ++ pend)
       | .targetsC _ => FlagsIn st pend) →
      exec subs targets fuel call st = some st2 →
      FlagsIn st2 pend ∧ CacheWF subs st2 := by
  intro fuel
  induction fuel with
  | zero =>
    intro call st pend st2 _ _ _ hrun
    exact Option.noConfusion (show (none : Option TreeState) = some st2 from hrun)
  | succ fuel ih =>
    intro call st pend st2 hpc hcw hpre hrun
    cases call with
    | notify n =>
      simp only [exec] at hrun
      have hbflag : ∀ x, (notifySubscribers subs n (setUpdated st n true)).flag x =
          (st.flag x || decide (x ∈ subs n)) :=
        fun x => flag_foldl_setFlag (subs n) (setUpdated st n true) x
      have hbcache : (notifySubscribers subs n (setUpdated st n true)).cache = st.cache :=
        (updated_foldl_setFlag (subs n) (setUpdated st n true)).2.1
      have hcwb : CacheWF subs (notifySubscribers subs n (setUpdated st n true)) := by
        intro k o h
        rw [hbcache] at h
        exact hcw k o h
      by_cases hfl : (notifySubscribers subs n (setUpdated st n true)).flag n = true
      · rw [if_pos hfl] at hrun
        have h2 : notifySubscribers subs n (setUpdated st n true) = st2 :=
          Option.some.inj hrun
        subst h2
        refine ⟨?_, hcwb⟩
        intro x hx
        have hx2 : (st.flag x || decide (x ∈ subs n)) = true := by
          rw [← hbflag]; exact hx
        have hn : st.flag n = true := by
          have h3 := hbflag n
          rw [h3] at hfl
          simpa [Hirr n] using hfl
        have hnp : n ∈ pend := hpre n hn
        rcases Bool.or_eq_true_iff.mp hx2 with h | h
        · exact hpre x h
        · exact hpc n hnp x (by simpa using h)
      · rw [if_neg hfl] at hrun
        refine ih (.process n) _ pend st2 hpc hcwb ?_ hrun
        intro x hx
        have hx2 : (st.flag x || decide (x ∈ subs n)) = true := by
          rw [← hbflag]; exact hx
        rcases Bool.or_eq_true_iff.mp hx2 with h | h
        · exact .inl (hpre x h)
        · exact .inr (by simpa using h)
    | process n =>
      simp only [exec] at hrun
      cases hcache : st.cache n with
      | some o =>
        rw [hcache] at hrun
        have hrun2 : (match exec subs targets fuel (.sweepC o) st with
          | none => none
          | some st3 => some (o.foldl (fun st m => setUpdated st m false) st3)) =
            some st2 := hrun
        obtain ⟨_hnd, hfc, hno⟩ := hcw n o hcache
        have hsubn : ∀ u ∈ subs n, u ∈ o := by
          obtain ⟨l1, l2, hd⟩ := List.append_of_mem hno
          intro u hu
          rw [hd]
          exact List.mem_append.mpr
            (.inr (List.mem_cons_of_mem _ (forwardClosed_decomp l1 hfc hd u hu)))
        cases hsw : exec subs targets fuel (.sweepC o) st with
        | none =>
          rw [hsw] at hrun2
          exact Option.noConfusion (show (none : Option TreeState) = some st2 from hrun2)
        | some st3 =>
          rw [hsw] at hrun2
          have hst2 : o.foldl (fun st m => setUpdated st m false) st3 = st2 :=
            Option.some.inj hrun2
          subst hst2
          have hside : FlagsIn st (o ++ pend) ∧
              (∀ l1 m l2, o = l1 ++ m :: l2 → ∀ u ∈ subs m, u ∈ l2 ++ pend) := by
            constructor
            · intro x hx
              rcases hpre x hx with h | h
              · exact List.mem_append.mpr (.inr h)
              · exact List.mem_append.mpr (.inl (hsubn x h))
            · intro l1 m l2 heq u hu
              exact List.mem_append.mpr (.inl (forwardClosed_decomp l1 hfc heq u hu))
          have hrec := ih (.sweepC o) st pend st3 hpc hcw hside hsw
          constructor
          · intro x hx
            have hfx : (o.foldl (fun st m => setUpdated st m false) st3).flag =
                st3.flag := (fields_foldl_setUpdated o st3).1
            rw [hfx] at hx
            exact hrec.1 x hx
          · intro k ord hk
            have hcx : (o.foldl (fun st m => setUpdated st m false) st3).cache =
                st3.cache := (fields_foldl_setUpdated o st3).2.1
            rw [hcx] at hk
            exact hrec.2 k ord hk
      | none =>
        rw [hcache] at hrun
        cases hgo : getUpdateOrder subs (fuel + 1) n with
        | none =>
          rw [hgo] at hrun
          exact Option.noConfusion (show (none : Option TreeState) = some st2 from hrun)
        | some o =>
          rw [hgo] at hrun
          have hrun2 : (match exec subs targets fuel (.sweepC o)
              ({ st with cache := fun x => if x = n then some o else st.cache x }) with
            | none => none
            | some st3 => some (o.foldl (fun st m => setUpdated st m false) st3)) =
              some st2 := hrun
          obtain ⟨hnd, hfc, hno⟩ := getUpdateOrder_wf subs (fuel + 1) n o hgo
          have hcw1 : CacheWF subs
              { st with cache := fun x => if x = n then some o else st.cache x } := by
            intro k ord hk
            by_cases hkn : k = n
            · subst hkn
              have hord : some o = some ord := by
                have hk2 : (if k = k then some o else st.cache k) = some ord := hk
                rwa [if_pos rfl] at hk2
              have ho2 : o = ord := Option.some.inj hord
              subst ho2
              exact ⟨hnd, hfc, hno⟩
            · have hk2 : st.cache k = some ord := by
                have hk3 : (if k = n then some o else st.cache k) = some ord := hk
                rwa [if_neg hkn] at hk3
              exact hcw k ord hk2
          have hsubn : ∀ u ∈ subs n, u ∈ o := by
            obtain ⟨l1, l2, hd⟩ := List.append_of_mem hno
            intro u hu
            rw [hd]
            exact List.mem_append.mpr
              (.inr (List.mem_cons_of_mem _ (forwardClosed_decomp l1 hfc hd u hu)))
          cases hsw : exec subs targets fuel (.sweepC o)
              { st with cache := fun x => if x = n then some o else st.cache x } with
          | none =>
            rw [hsw] at hrun2
            exact Option.noConfusion (show (none : Option TreeState) = some st2 from hrun2)
          | some st3 =>
            rw [hsw] at hrun2
            have hst2 : o.foldl (fun st m => setUpdated st m false) st3 = st2 :=
              Option.some.inj hrun2
            subst hst2
            have hside : FlagsIn
                ({ st with cache := fun x => if x = n then some o else st.cache x })
                (o ++ pend) ∧
                (∀ l1 m l2, o = l1 ++ m :: l2 → ∀ u ∈ subs m, u ∈ l2 ++ pend) := by
              constructor
              · intro x hx
                rcases hpre x hx with h | h
                · exact List.mem_append.mpr (.inr h)
                · exact List.mem_append.mpr (.inl (hsubn x h))
              · intro l1 m l2 heq u hu
                exact List.mem_append.mpr (.inl (forwardClosed_decomp l1 hfc heq u hu))
            have hrec := ih (.sweepC o) _ pend st3 hpc hcw1 hside hsw
            constructor
            · intro x hx
              have hfx : (o.foldl (fun st m => setUpdated st m false) st3).flag =
                  st3.flag := (fields_foldl_setUpdated o st3).1
              rw [hfx] at hx
              exact hrec.1 x hx
            · intro k ord hk
              have hcx : (o.foldl (fun st m => setUpdated st m false) st3).cache =
                  st3.cache := (fields_foldl_setUpdated o st3).2.1
              rw [hcx] at hk
              exact hrec.2 k ord hk
    | sweepC sfx =>
      obtain ⟨hcov, hscl⟩ := hpre
      cases sfx with
      | nil =>
        have h2 : st = st2 := Option.some.inj hrun
        subst h2
        exact ⟨fun x hx => hcov x hx, hcw⟩
      | cons m rest =>
        simp only [exec] at hrun
        have hsubm : ∀ u ∈ subs m, u ∈ rest ++ pend := hscl [] m rest rfl
        have hpc2 : ∀ t ∈ m :: (rest ++ pend), ∀ u ∈ subs t, u ∈ m :: (rest ++ pend) := by
          intro t ht u hu
          rcases List.mem_cons.mp ht with rfl | ht2
          · exact List.mem_cons_of_mem _ (hsubm u hu)
          · rcases List.mem_append.mp ht2 with h3 | h3
            · obtain ⟨l1, l2, hd⟩ := List.append_of_mem h3
              have h4 := hscl (m :: l1) t l2 (by rw [hd]; rfl) u hu
              rcases List.mem_append.mp h4 with h5 | h5
              · refine List.mem_cons_of_mem _ (List.mem_append.mpr (.inl ?_))
                rw [hd]
                exact List.mem_append.mpr (.inr (List.mem_cons_of_mem _ h5))
              · exact List.mem_cons_of_mem _ (List.mem_append.mpr (.inr h5))
            · exact List.mem_cons_of_mem _ (List.mem_append.mpr (.inr (hpc t h3 u hu)))
        have hsclr : ∀ l1 m2 l2, rest = l1 ++ m2 :: l2 → ∀ u ∈ subs m2, u ∈ l2 ++ pend := by
          intro l1 m2 l2 heq u hu
          exact hscl (m :: l1) m2 l2 (by rw [heq]; rfl) u hu
        by_cases hfl : st.flag m = true
        · rw [if_pos hfl] at hrun
          cases htg : exec subs targets fuel (.targetsC (targets m))
              { st with log := st.log ++ [m] } with
          | none =>
            rw [htg] at hrun
            exact Option.noConfusion (show (none : Option TreeState) = some st2 from hrun)
          | some st4 =>
            rw [htg] at hrun
            have hrun2 : exec subs targets fuel (.sweepC rest) (setFlag st4 m false) =
                some st2 := hrun
            have hrec1 := ih (.targetsC (targets m)) { st with log := st.log ++ [m] }
              (m :: (rest ++ pend)) st4 hpc2 hcw (fun x hx => hcov x hx) htg
            refine ih (.sweepC rest) (setFlag st4 m false) pend st2 hpc hrec1.2 ?_ hrun2
            constructor
            · intro x hx
              by_cases hxm : x = m
              · exact absurd (show (if x = m then false else st4.flag x) = true from hx)
                  (by simp [hxm])
              · have hx4 : st4.flag x = true := by
                  have hh : (if x = m then false else st4.flag x) = true := hx
                  rwa [if_neg hxm] at hh
                rcases List.mem_cons.mp (hrec1.1 x hx4) with h | h
                · exact absurd h hxm
                · exact h
            · exact hsclr
        · rw [if_neg hfl] at hrun
          have hrun2 : exec subs targets fuel (.sweepC rest) (setFlag st m false) =
              some st2 := hrun
          refine ih (.sweepC rest) (setFlag st m false) pend st2 hpc hcw ?_ hrun2
          constructor
          · intro x hx
            by_cases hxm : x = m
            · exact absurd (show (if x = m then false else st.flag x) = true from hx)
                (by simp [hxm])
            · have hx4 : st.flag x = true := by
                have hh : (if x = m then false else st.flag x) = true := hx
                rwa [if_neg hxm] at hh
              rcases List.mem_cons.mp (hcov x hx4) with h | h
              · exact absurd h hxm
              · exact h
          · exact hsclr
    | targetsC ts =>
      cases ts with
      | nil =>
        have h2 : st = st2 := Option.some.inj hrun
        subst h2
        exact ⟨hpre, hcw⟩
      | cons t ts2 =>
        simp only [exec] at hrun
        cases hnt : exec subs targets fuel (.notify t) st with
        | none =>
          rw [hnt] at hrun
          exact Option.noConfusion (show (none : Option TreeState) = some st2 from hrun)
        | some st4 =>
          rw [hnt] at hrun
          have hrun2 : exec subs targets fuel (.targetsC ts2) st4 = some st2 := hrun
          have hrec1 := ih (.notify t) st pend st4 hpc hcw hpre hnt
          exact ih (.targetsC ts2) st4 pend st2 hpc hrec1.2 hrec1.1 hrun2

/-- C9: after a root-initiated `NotifyUpdated` call returns (a complete
propagation pass over the root's cached update order, whose handlers may
re-entrantly notify arbitrary nodes, spawning nested passes), every node of
the cached order — the root included — has its transient `updated` flag
false and its `subscriptionUpdated` flag false: the scratch flags are clear
between passes.  The hypotheses are the standing well-formedness of the
system: no node subscribes to itself, every cached order was produced by
`getUpdateOrder` (hence duplicate-free and forward-closed), and the pass
starts from the between-passes state with all flags clear. -/
theorem flags_clear_after_pass (subs targets : Nat → List Nat) (r : Nat)
    (order : List Nat) (fuel : Nat) (st st2 : TreeState)
    (Hirr : ∀ k, k ∉ subs k)
    (hcw : CacheWF subs st)
    (hcache : st.cache r = some order)
    (hflags : ∀ x, st.flag x = false)
    (hrun : notifyUpd subs targets fuel r st = some st2) :
    ∀ m ∈ order, st2.flag m = false ∧ st2.updated m = false := by
  have hcov := exec_covered subs targets Hirr fuel (.notify r) st [] st2
    (by simp) hcw (fun x hx => absurd hx (by simp [hflags x])) hrun
  have hflag2 : ∀ m, st2.flag m = false := by
    intro m
    refine Bool.eq_false_iff.mpr ?_
    intro hc
    exact absurd (hcov.1 m hc) (List.not_mem_nil m)
  unfold notifyUpd at hrun
  match fuel, hrun with
  | 0, hrun =>
    exact Option.noConfusion (show (none : Option TreeState) = some st2 from hrun)
  | fuel + 1, hrun =>
    simp only [exec] at hrun
    have hbfr : (notifySubscribers subs r (setUpdated st r true)).flag r = false := by
      have heq : (notifySubscribers subs r (setUpdated st r true)).flag r =
          (st.flag r || decide (r ∈ subs r)) :=
        flag_foldl_setFlag (subs r) (setUpdated st r true) r
      rw [heq]
      simp [hflags r, Hirr r]
    rw [if_neg (by simp [hbfr])] at hrun
    match fuel, hrun with
    | 0, hrun =>
      exact Option.noConfusion (show (none : Option TreeState) = some st2 from hrun)
    | fuel + 1, hrun =>
      simp only [exec] at hrun
      have hbcache : (notifySubscribers subs r (setUpdated st r true)).cache = st.cache :=
        (updated_foldl_setFlag (subs r) (setUpdated st r true)).2.1
      have hbc : (notifySubscribers subs r (setUpdated st r true)).cache r = some order := by
        rw [hbcache]
        exact hcache
      rw [hbc] at hrun
      have hrun2 : (match exec subs targets fuel (.sweepC order)
          (notifySubscribers subs r (setUpdated st r true)) with
        | none => none
        | some st3 => some (order.foldl (fun st m => setUpdated st m false) st3)) =
          some st2 := hrun
      cases hsw : exec subs targets fuel (.sweepC order)
          (notifySubscribers subs r (setUpdated st r true)) with
      | none =>
        rw [hsw] at hrun2
        exact Option.noConfusion (show (none : Option TreeState) = some st2 from hrun2)
      | some st3 =>
        rw [hsw] at hrun2
        have hst2 : order.foldl (fun st m => setUpdated st m false) st3 = st2 :=
          Option.some.inj hrun2
        intro m hm
        refine ⟨hflag2 m, ?_⟩
        rw [← hst2, updated_foldl_clear]
        simp [hm]

/-! ## Pull buffer: range, cursor and read-count lemmas -/

theorem drop_range_one : ∀ (k n a : Nat), (List.range' a n).drop k = List.range' (a + k) (n - k)
  | 0, n, a => by simp
  | k + 1, 0, a => by simp
  | k + 1, n + 1, a => by
    rw [List.range'_succ, List.drop_succ_cons, drop_range_one k n (a + 1)]
    have h1 : a + 1 + k = a + (k + 1) := by omega
    have h2 : n - k = n + 1 - (k + 1) := by omega
    rw [h1, h2]

theorem take_range_one : ∀ (k n a : Nat), k ≤ n → (List.range' a n).take k = List.range' a k
  | 0, n, a, _ => by simp
  | k + 1, 0, a, h => by omega
  | k + 1, n + 1, a, h => by
    rw [List.range'_succ, List.take_succ_cons, take_range_one k n (a + 1) (by omega),
      List.range'_succ]

theorem getD_range_map (l : List Nat) : ∀ (n k : Nat), k + n ≤ l.length →
    (List.range' k n).map (fun g => l.getD g 0) = (l.drop k).take n := by
  intro n
  induction n with
  | zero => intro k _; simp
  | succ n ih =>
    intro k hk
    have hkl : k < l.length := by omega
    rw [List.range'_succ, List.map_cons, ih (k + 1) (by omega),
      List.drop_eq_getElem_cons hkl, List.take_succ_cons]
    congr 1
    exact List.getD_eq_getElem l 0 hkl

theorem drop_eq_range_map (l : List Nat) (k : Nat) (h : k ≤ l.length) :
    l.drop k = (List.range' k (l.length - k)).map (fun g => l.getD g 0) := by
  rw [getD_range_map l (l.length - k) k (by omega)]
  exact (List.take_of_length_le (by simp)).symm

theorem minCursor_le_dflt (l : List Nat) (d : Nat) : minCursor l d ≤ d := by
  induction l with
  | nil => exact Nat.le_refl d
  | cons c l ih => exact Nat.le_trans (Nat.min_le_right c (minCursor l d)) ih

theorem minCursor_le_mem (l : List Nat) (d : Nat) : ∀ c ∈ l, minCursor l d ≤ c := by
  induction l with
  | nil => intro c hc; simp at hc
  | cons c2 l ih =>
    intro c hc
    rcases List.mem_cons.mp hc with rfl | hc2
    · exact Nat.min_le_left _ _
    · exact Nat.le_trans (Nat.min_le_right c2 (minCursor l d)) (ih c hc2)

theorem le_minCursor (l : List Nat) (d k : Nat) (hd : k ≤ d) (h : ∀ c ∈ l, k ≤ c) :
    k ≤ minCursor l d := by
  induction l with
  | nil => exact hd
  | cons c l ih =>
    exact Nat.le_min.mpr ⟨h c (by simp), ih (fun x hx => h x (List.mem_cons_of_mem _ hx))⟩

theorem minCursor_attained (l : List Nat) (d : Nat) :
    minCursor l d = d ∨ minCursor l d ∈ l := by
  induction l with
  | nil => exact .inl rfl
  | cons c l ih =>
    rcases Nat.le_total c (minCursor l d) with h | h
    · have hh : minCursor (c :: l) d = c := by
        show min c (minCursor l d) = c
        exact Nat.min_eq_left h
      rw [hh]; exact .inr (List.mem_cons_self _ _)
    · have hh : minCursor (c :: l) d = minCursor l d := by
        show min c (minCursor l d) = minCursor l d
        exact Nat.min_eq_right h
      rw [hh]
      rcases ih with h1 | h1
      · exact .inl h1
      · exact .inr (List.mem_cons_of_mem _ h1)

theorem minCursor_congr (l : List Nat) (d1 d2 : Nat) (hne : l ≠ [])
    (h1 : ∀ c ∈ l, c ≤ d1) (h2 : ∀ c ∈ l, c ≤ d2) :
    minCursor l d1 = minCursor l d2 := by
  induction l with
  | nil => exact absurd rfl hne
  | cons c l ih =>
    rcases eq_or_ne l [] with rfl | hl
    · show min c d1 = min c d2
      rw [Nat.min_eq_left (h1 c (by simp)), Nat.min_eq_left (h2 c (by simp))]
    · show min c (minCursor l d1) = min c (minCursor l d2)
      rw [ih hl (fun x hx => h1 x (List.mem_cons_of_mem _ hx))
        (fun x hx => h2 x (List.mem_cons_of_mem _ hx))]

theorem readersCount_le (l : List Nat) (g : Nat) : readersCount l g ≤ l.length :=
  List.length_filter_le _ _

theorem readersCount_eq_length_iff (l : List Nat) (g : Nat) :
    readersCount l g = l.length ↔ ∀ c ∈ l, g < c := by
  unfold readersCount
  rw [List.filter_length_eq_length]
  simp

theorem readersCount_append (l1 l2 : List Nat) (g : Nat) :
    readersCount (l1 ++ l2) g = readersCount l1 g + readersCount l2 g := by
  unfold readersCount
  rw [List.filter_append, List.length_append]

theorem readersCount_set_same (l : List Nat) (i : Nat) (hi : i < l.length) (v g : Nat)
    (h : (g < v) ↔ (g < l[i])) :
    readersCount (l.set i v) g = readersCount l g := by
  have hl2 : l = List.take i l ++ l[i] :: List.drop (i + 1) l := by
    conv_lhs => rw [← List.take_append_drop i l, List.drop_eq_getElem_cons hi]
  unfold readersCount
  rw [List.set_eq_take_append_cons_drop, if_pos hi]
  conv_rhs => rw [hl2]
  simp only [List.filter_append, List.filter_cons, List.length_append]
  by_cases hgv : g < v
  · rw [if_pos (by simpa using hgv), if_pos (by simpa using h.mp hgv)]
    simp only [List.length_cons]
  · rw [if_neg (by simpa using hgv), if_neg (by simpa using fun hh => hgv (h.mpr hh))]

theorem readersCount_set_bump (l : List Nat) (i : Nat) (hi : i < l.length) (v g : Nat)
    (hv : g < v) (hold : ¬ g < l[i]) :
    readersCount (l.set i v) g = readersCount l g + 1 := by
  have hl2 : l = List.take i l ++ l[i] :: List.drop (i + 1) l := by
    conv_lhs => rw [← List.take_append_drop i l, List.drop_eq_getElem_cons hi]
  unfold readersCount
  rw [List.set_eq_take_append_cons_drop, if_pos hi]
  conv_rhs => rw [hl2]
  simp only [List.filter_append, List.filter_cons, List.length_append]
  rw [if_pos (by simpa using hv), if_neg (by simpa using hold)]
  simp only [List.length_cons]
  omega

theorem erasableCount_full_append (l1 l2 : List (Nat × Nat)) (c : Nat)
    (h : ∀ e ∈ l1, e.2 = c) :
    erasableCount (l1 ++ l2) c = l1.length + erasableCount l2 c := by
  induction l1 with
  | nil => simp [erasableCount]
  | cons e l1 ih =>
    rw [List.cons_append]
    show (if e.2 = c then erasableCount (l1 ++ l2) c + 1 else 0) = (e :: l1).length + _
    rw [if_pos (h e (by simp)), ih (fun x hx => h x (List.mem_cons_of_mem _ hx))]
    simp only [List.length_cons]
    omega

theorem erasableCount_cons_ne (e : Nat × Nat) (l : List (Nat × Nat)) (c : Nat)
    (h : e.2 ≠ c) : erasableCount (e :: l) c = 0 := by
  show (if e.2 = c then _ else 0) = 0
  rw [if_neg h]

theorem set_self_eq (l : List Nat) (i : Nat) (hi : i < l.length) : l.set i l[i] = l := by
  rw [List.set_eq_take_append_cons_drop, if_pos hi]
  conv_rhs => rw [← List.take_append_drop i l, List.drop_eq_getElem_cons hi]

/-- `NewPuller` preserves the system invariant when no slot has been
reclaimed yet: the fresh cursor `0` then coincides with the buffer's oldest
retained lifetime index, and the new puller has read none of the slots. -/
theorem sysInv_newPuller {s : Sys} (hinv : SysInv s)
    (hfull : s.store.events.length = s.store.eventsPushed) :
    SysInv ⟨(NewPuller s.store).1, s.pullers ++ [(NewPuller s.store).2], s.log⟩ := by
  obtain ⟨i1, i2, i3, i4⟩ := hinv
  have hlen4 : s.store.events.length =
      s.store.eventsPushed - minCursor s.pullers s.store.eventsPushed := by
    rw [i4]; simp
  have hmc0 : minCursor s.pullers s.store.eventsPushed = 0 ∨
      s.store.eventsPushed = 0 := by
    have := minCursor_le_dflt s.pullers s.store.eventsPushed
    omega
  refine ⟨i1, ?_, ?_, ?_⟩
  · intro c hc
    rcases List.mem_append.mp hc with hc1 | hc2
    · exact i2 c hc1
    · have hc0 : c = 0 := by simpa [NewPuller] using hc2
      simp [hc0]
  · show s.store.pullersCount + 1 = (s.pullers ++ [(NewPuller s.store).2]).length
    rw [i3]; simp
  · dsimp only [NewPuller]
    show s.store.events = _
    have hmc' : minCursor (s.pullers ++ [0]) s.store.eventsPushed = 0 :=
      Nat.le_antisymm (minCursor_le_mem _ _ 0 (by simp)) (Nat.zero_le _)
    rw [hmc']
    rcases hmc0 with hmc | hp0
    · rw [i4, hmc]
      refine List.map_congr_left ?_
      intro g _
      have hrc : readersCount (s.pullers ++ [0]) g = readersCount s.pullers g := by
        rw [readersCount_append]
        simp [readersCount]
      rw [hrc]
    · have hev : s.store.events = [] := List.length_eq_zero.mp (by omega)
      rw [hev, hp0]
      simp

/-- `Pull` on a buffer in invariant shape: the puller receives exactly the
history suffix from its cursor, its cursor advances to the total-pushed
count, and the buffer is garbage-collected back into invariant shape for the
updated cursor list. -/
theorem pull_char (log ps : List Nat) (P i : Nat) (hi : i < ps.length)
    (h1 : log.length = P) (h2 : ∀ c ∈ ps, c ≤ P) :
    Pull ⟨P, (List.range' (minCursor ps P) (P - minCursor ps P)).map
        (fun g => (log.getD g 0, readersCount ps g)), ps.length⟩ ps[i] =
      some (log.drop ps[i],
        ⟨P, (List.range' (minCursor (ps.set i P) P) (P - minCursor (ps.set i P) P)).map
          (fun g => (log.getD g 0, readersCount (ps.set i P) g)), ps.length⟩, P) := by
  have hcur_le : ps[i] ≤ P := h2 _ (List.getElem_mem hi)
  set cur := ps[i] with hcur
  set mc := minCursor ps P with hmcd
  set mc2 := minCursor (ps.set i P) P with hmc2d
  have hmc_le : mc ≤ P := minCursor_le_dflt _ _
  have hmc_cur : mc ≤ cur := minCursor_le_mem _ _ _ (List.getElem_mem hi)
  have hmc2_ge : mc ≤ mc2 := by
    refine le_minCursor _ _ _ hmc_le ?_
    intro c2 hc2
    rcases List.mem_or_eq_of_mem_set hc2 with h | h
    · exact minCursor_le_mem _ _ _ h
    · rw [h]; exact hmc_le
  have hmc2_le : mc2 ≤ P := minCursor_le_dflt _ _
  by_cases hceq : cur = P
  · have hset : ps.set i P = ps := by
      rw [← hceq, hcur]
      exact set_self_eq ps i hi
    have hmc2mc : mc2 = mc := by rw [hmc2d, hset, hmcd]
    rw [hset, hmc2mc]
    have hge : getEvents ⟨P, (List.range' mc (P - mc)).map
        (fun g => (log.getD g 0, readersCount ps g)), ps.length⟩ cur =
        some ([], ⟨P, (List.range' mc (P - mc)).map
          (fun g => (log.getD g 0, readersCount ps g)), ps.length⟩) := by
      simp only [getEvents]
      rw [if_pos (by omega : ((P : Int) - (cur : Int)) = 0)]
    unfold Pull
    rw [hge]
    show (if ([] : List (Nat × Nat)).length = 0 then
        some (([] : List Nat), (⟨P, (List.range' mc (P - mc)).map
          (fun g => (log.getD g 0, readersCount ps g)), ps.length⟩ : EventsPullStorage), cur)
      else
        some ((([] : List (Nat × Nat))).map Prod.fst,
          (⟨P, (List.range' mc (P - mc)).map
            (fun g => (log.getD g 0, readersCount ps g)), ps.length⟩ : EventsPullStorage),
          cur + ([] : List (Nat × Nat)).length)) = _
    rw [if_pos (show ([] : List (Nat × Nat)).length = 0 from rfl)]
    have hdp : log.drop cur = [] := by
      rw [hceq, ← h1]
      exact List.drop_length log
    rw [hdp, hceq]
  · have hlt : cur < P := Nat.lt_of_le_of_ne hcur_le hceq
    have htake : ((List.range' mc (P - mc)).map
        (fun g => (log.getD g 0, readersCount ps g))).take (cur - mc) =
        (List.range' mc (cur - mc)).map (fun g => (log.getD g 0, readersCount ps g)) := by
      rw [← List.map_take, take_range_one _ _ _ (by omega)]
    have hdropE : ((List.range' mc (P - mc)).map
        (fun g => (log.getD g 0, readersCount ps g))).drop (cur - mc) =
        (List.range' cur (P - cur)).map (fun g => (log.getD g 0, readersCount ps g)) := by
      rw [← List.map_drop, drop_range_one, show mc + (cur - mc) = cur from by omega,
        show P - mc - (cur - mc) = P - cur from by omega]
    have hbump : ((fun e => ((e : Nat × Nat).1, e.2 + 1)) ∘
        (fun g => (log.getD g 0, readersCount ps g))) =
        fun g => (log.getD g 0, readersCount ps g + 1) := rfl
    have hsplit : List.range' mc (P - mc) =
        List.range' mc (cur - mc) ++ List.range' cur (P - cur) := by
      rw [show P - mc = (P - cur) + (cur - mc) from by omega,
        ← List.range'_append_1 mc (cur - mc) (P - cur),
        show mc + (cur - mc) = cur from by omega]
    have hev2 : (List.range' mc (cur - mc)).map (fun g => (log.getD g 0, readersCount ps g)) ++
        (List.range' cur (P - cur)).map (fun g => (log.getD g 0, readersCount ps g + 1)) =
        (List.range' mc (P - mc)).map (fun g => (log.getD g 0, readersCount (ps.set i P) g)) := by
      rw [hsplit, List.map_append]
      congr 1
      · refine List.map_congr_left ?_
        intro g hg
        rw [List.mem_range'_1] at hg
        have hrs : readersCount (ps.set i P) g = readersCount ps g := by
          refine readersCount_set_same _ _ hi _ _ ?_
          constructor
          · intro _; rw [← hcur]; omega
          · intro _; omega
        rw [hrs]
      · refine List.map_congr_left ?_
        intro g hg
        rw [List.mem_range'_1] at hg
        have hrs : readersCount (ps.set i P) g = readersCount ps g + 1 := by
          refine readersCount_set_bump _ _ hi _ _ (by omega) ?_
          rw [← hcur]; omega
        rw [hrs]
    have hsplit2 : List.range' mc (P - mc) =
        List.range' mc (mc2 - mc) ++ List.range' mc2 (P - mc2) := by
      rw [show P - mc = (P - mc2) + (mc2 - mc) from by omega,
        ← List.range'_append_1 mc (mc2 - mc) (P - mc2),
        show mc + (mc2 - mc) = mc2 from by omega]
    have hcount : ps.length = (ps.set i P).length := by simp
    have herase : erasableCount ((List.range' mc (P - mc)).map
        (fun g => (log.getD g 0, readersCount (ps.set i P) g))) ps.length = mc2 - mc := by
      rw [hsplit2, List.map_append]
      rw [erasableCount_full_append _ _ _ ?_]
      · rcases Nat.eq_zero_or_pos (P - mc2) with h0 | hpos
        · rw [h0]
          simp [erasableCount]
        · rw [show P - mc2 = (P - mc2 - 1) + 1 from by omega, List.range'_succ, List.map_cons]
          rw [erasableCount_cons_ne _ _ _ ?_]
          · simp
          · show readersCount (ps.set i P) mc2 ≠ ps.length
            intro hcontra
            rw [hcount, readersCount_eq_length_iff] at hcontra
            rcases minCursor_attained (ps.set i P) P with h | h
            · omega
            · exact absurd (hcontra mc2 h) (by omega)
      · intro ee hee
        obtain ⟨g, hg, rfl⟩ := List.mem_map.mp hee
        rw [List.mem_range'_1] at hg
        show readersCount (ps.set i P) g = ps.length
        rw [hcount, readersCount_eq_length_iff]
        intro c2 hc2
        exact Nat.lt_of_lt_of_le (show g < mc2 from by omega)
          (minCursor_le_mem (ps.set i P) P _ hc2)
    have hdrop2 : ((List.range' mc (P - mc)).map
        (fun g => (log.getD g 0, readersCount (ps.set i P) g))).drop (mc2 - mc) =
        (List.range' mc2 (P - mc2)).map (fun g => (log.getD g 0, readersCount (ps.set i P) g)) := by
      rw [← List.map_drop, drop_range_one, show mc + (mc2 - mc) = mc2 from by omega,
        show P - mc - (mc2 - mc) = P - mc2 from by omega]
    have hge2 : getEvents ⟨P, (List.range' mc (P - mc)).map
        (fun g => (log.getD g 0, readersCount ps g)), ps.length⟩ cur =
        some ((List.range' cur (P - cur)).map (fun g => (log.getD g 0, readersCount ps g + 1)),
          ⟨P, (List.range' mc2 (P - mc2)).map
            (fun g => (log.getD g 0, readersCount (ps.set i P) g)), ps.length⟩) := by
      simp only [getEvents, List.length_map, List.length_range']
      rw [if_neg (by omega : ¬ ((P : Int) - (cur : Int)) = 0)]
      rw [if_neg (by omega :
        ¬ (((P - mc : Nat) : Int) - ((P : Int) - (cur : Int)) < 0 ∨
          ((P - mc : Nat) : Int) < ((P - mc : Nat) : Int) - ((P : Int) - (cur : Int))))]
      rw [show (((P - mc : Nat) : Int) - ((P : Int) - (cur : Int))).toNat = cur - mc from by omega]
      rw [htake, hdropE, List.map_map, hbump, hev2, herase, hdrop2]
    unfold Pull
    rw [hge2]
    show (if ((List.range' cur (P - cur)).map
        (fun g => (log.getD g 0, readersCount ps g + 1))).length = 0 then
        some (([] : List Nat), (⟨P, (List.range' mc2 (P - mc2)).map
          (fun g => (log.getD g 0, readersCount (ps.set i P) g)),
          ps.length⟩ : EventsPullStorage), cur)
      else
        some ((((List.range' cur (P - cur)).map
            (fun g => (log.getD g 0, readersCount ps g + 1))).map Prod.fst),
          (⟨P, (List.range' mc2 (P - mc2)).map
            (fun g => (log.getD g 0, readersCount (ps.set i P) g)),
            ps.length⟩ : EventsPullStorage),
          cur + ((List.range' cur (P - cur)).map
            (fun g => (log.getD g 0, readersCount ps g + 1))).length)) = _
    rw [if_neg (by simp only [List.length_map, List.length_range']; omega)]
    rw [List.map_map]
    rw [show (Prod.fst ∘ fun g => ((log.getD g 0 : Nat), readersCount ps g + 1)) =
      fun g => log.getD g 0 from rfl]
    rw [show log.drop cur = (List.range' cur (P - cur)).map (fun g => log.getD g 0) from by
      rw [drop_eq_range_map log cur (by omega), h1]]
    rw [show cur + ((List.range' cur (P - cur)).map
        (fun g => (log.getD g 0, readersCount ps g + 1))).length = P from by
      simp only [List.length_map, List.length_range']; omega]

/-- `Publish` preserves the system invariant: with no puller it is a no-op,
otherwise it appends an unread slot carrying the new history entry. -/
theorem sysInv_publish {s : Sys} (e : Nat) (hinv : SysInv s) :
    SysInv ⟨Publish s.store e, s.pullers,
      if s.store.pullersCount = 0 then s.log else s.log ++ [e]⟩ := by
  obtain ⟨i1, i2, i3, i4⟩ := hinv
  by_cases hp : s.store.pullersCount = 0
  · have hpub : Publish s.store e = s.store := by unfold Publish; rw [if_pos hp]
    rw [hpub, if_pos hp]
    exact ⟨i1, i2, i3, i4⟩
  · have hpub : Publish s.store e = { s.store with
        eventsPushed := s.store.eventsPushed + 1
        events := s.store.events ++ [(e, 0)] } := by
      unfold Publish; rw [if_neg hp]
    rw [hpub, if_neg hp]
    have hne : s.pullers ≠ [] := by
      intro hnil
      rw [i3, hnil] at hp
      exact hp rfl
    have hmc' : minCursor s.pullers (s.store.eventsPushed + 1) =
        minCursor s.pullers s.store.eventsPushed :=
      minCursor_congr _ _ _ hne (fun c hc => Nat.le_succ_of_le (i2 c hc)) i2
    have hmcle : minCursor s.pullers s.store.eventsPushed ≤ s.store.eventsPushed :=
      minCursor_le_dflt _ _
    refine ⟨?_, ?_, i3, ?_⟩
    · show (s.log ++ [e]).length = s.store.eventsPushed + 1
      rw [List.length_append, i1]
      rfl
    · intro c hc
      exact Nat.le_succ_of_le (i2 c hc)
    · show s.store.events ++ [(e, 0)] = _
      rw [hmc']
      have hsplit : s.store.eventsPushed + 1 - minCursor s.pullers s.store.eventsPushed =
          (s.store.eventsPushed - minCursor s.pullers s.store.eventsPushed) + 1 := by omega
      rw [hsplit, List.range'_1_concat, List.map_append]
      have hlast : minCursor s.pullers s.store.eventsPushed +
          (s.store.eventsPushed - minCursor s.pullers s.store.eventsPushed) =
          s.store.eventsPushed := by omega
      rw [hlast]
      congr 1
      · rw [i4]
        refine List.map_congr_left ?_
        intro g hg
        have hglt : g < s.store.eventsPushed := by
          rw [List.mem_range'_1] at hg
          omega
        rw [List.getD_append _ _ _ _ (by rw [i1]; exact hglt)]
      · have h1 : (s.log ++ [e]).getD s.store.eventsPushed 0 = e := by
          rw [List.getD_append_right _ _ _ _ (le_of_eq i1), i1, Nat.sub_self]
          rfl
        have h2 : readersCount s.pullers s.store.eventsPushed = 0 := by
          unfold readersCount
          rw [List.length_eq_zero, List.filter_eq_nil_iff]
          intro c hc
          simp only [Bool.not_eq_true, decide_eq_false_iff_not]
          exact Nat.not_lt.mpr (i2 c hc)
        rw [List.map_cons, List.map_nil, h1, h2]

/-- `Pull` preserves the system invariant; moreover the pulled payloads are
exactly the history suffix from the puller's cursor and the cursor advances
to the total-pushed count. -/
theorem sysInv_pull {s : Sys} {evts : List Nat} {a : EventsPullStorage} {c : Nat}
    (i : Nat) (hi : i < s.pullers.length) (hinv : SysInv s)
    (hpull : Pull s.store s.pullers[i] = some (evts, a, c)) :
    SysInv ⟨a, s.pullers.set i c, s.log⟩ ∧
      evts = s.log.drop s.pullers[i] ∧ c = s.store.eventsPushed := by
  obtain ⟨i1, i2, i3, i4⟩ := hinv
  have hstore : s.store = ⟨s.store.eventsPushed,
      (List.range' (minCursor s.pullers s.store.eventsPushed)
        (s.store.eventsPushed - minCursor s.pullers s.store.eventsPushed)).map
        (fun g => (s.log.getD g 0, readersCount s.pullers g)), s.pullers.length⟩ := by
    rw [← i3, ← i4]
  have hkey := pull_char s.log s.pullers s.store.eventsPushed i hi i1 i2
  rw [← hstore] at hkey
  rw [hkey] at hpull
  simp only [Option.some.injEq, Prod.mk.injEq] at hpull
  obtain ⟨he, ha, hc⟩ := hpull
  subst he
  subst ha
  subst hc
  refine ⟨⟨i1, ?_, ?_, rfl⟩, rfl, rfl⟩
  · intro c2 hc2
    rcases List.mem_or_eq_of_mem_set hc2 with h | h
    · exact i2 c2 h
    · rw [h]
  · show s.pullers.length = (s.pullers.set i s.store.eventsPushed).length
    simp

/-- Every state reachable by `NewPuller` (while no slot was reclaimed),
`Publish` and `Pull` satisfies the system invariant. -/
theorem sysInv_reach : ∀ {s : Sys}, ReachPre s → SysInv s := by
  intro s h
  induction h with
  | init => exact ⟨rfl, by simp [Sys.empty], rfl, rfl⟩
  | newPuller _hre hfull ih => exact sysInv_newPuller ih hfull
  | publish e _hre ih => exact sysInv_publish e ih
  | pull i hlt _hre hp ih => exact (sysInv_pull i hlt ih hp).1

/-- C4 (amended): `NewPuller` returns a puller whose cursor starts at ZERO,
not at the buffer's current total-pushed count; consequently, over buffer
states reachable with pullers only registered while no slot had been
reclaimed, every pull returns the entire published history from the cursor
on — including events published before the puller's creation — and advances
the cursor to the history's length.  A puller observes exactly the events
published after its creation only when it was created before any publish. -/
theorem puller_observes_history :
    (∀ a : EventsPullStorage, (NewPuller a).2 = 0) ∧
    ∀ s : Sys, ReachPre s → ∀ (i : Nat), (hi : i < s.pullers.length) →
      ∀ (evts : List Nat) (a : EventsPullStorage) (c : Nat),
      Pull s.store s.pullers[i] = some (evts, a, c) →
      evts = s.log.drop s.pullers[i] ∧ c = s.log.length := by
  refine ⟨fun _ => rfl, ?_⟩
  intro s hre i hi evts a c hp
  have h := sysInv_pull i hi (sysInv_reach hre) hp
  refine ⟨h.2.1, ?_⟩
  rw [h.2.2, (sysInv_reach hre).1]

theorem puller_observes_history_witness :
    (NewPuller EventsPullStorage.empty).2 = 0 ∧
    ([7] = ([7] : List Nat).drop 0 ∧ (1 : Nat) = ([7] : List Nat).length) := by
  constructor
  · exact puller_observes_history.1 EventsPullStorage.empty
  · exact puller_observes_history.2 ⟨⟨1, [(7, 0)], 1⟩, [0], [7]⟩
      (ReachPre.publish 7 (ReachPre.newPuller ReachPre.init rfl)) 0 (by decide)
      [7] ⟨1, [], 1⟩ 1 (by decide)

/-- C8 (amended): over buffer states reachable with pullers only registered
while no slot had been reclaimed, a lifetime slot is retained iff it was
pushed and some currently registered puller has not yet read it; the buffer
length always equals the distance from the slowest puller's cursor to the
total-pushed count (so it decreases exactly when the slowest puller advances
past a prefix); and the claimed two-puller scenario holds: after publishing
1,2 a pull by P1 returns [1,2] and the length stays 2; after publishing 3,4
a pull by P2 returns [1,2,3,4] and the length becomes 2; a final pull by P1
returns [3,4] and the length becomes 0. -/
theorem retained_iff_unread :
    (∀ s : Sys, ReachPre s → ∀ g : Nat,
      Retained s g ↔ ((∃ cc ∈ s.pullers, cc ≤ g) ∧ g < s.store.eventsPushed)) ∧
    (∀ s : Sys, ReachPre s →
      BufferSize s.store =
        s.store.eventsPushed - minCursor s.pullers s.store.eventsPushed) ∧
    (Pull ⟨2, [(1, 0), (2, 0)], 2⟩ 0 = some ([1, 2], ⟨2, [(1, 1), (2, 1)], 2⟩, 2) ∧
     BufferSize ⟨2, [(1, 1), (2, 1)], 2⟩ = 2 ∧
     Publish (Publish ⟨2, [(1, 1), (2, 1)], 2⟩ 3) 4 = ⟨4, [(1, 1), (2, 1), (3, 0), (4, 0)], 2⟩ ∧
     Pull ⟨4, [(1, 1), (2, 1), (3, 0), (4, 0)], 2⟩ 0 =
       some ([1, 2, 3, 4], ⟨4, [(3, 1), (4, 1)], 2⟩, 4) ∧
     BufferSize ⟨4, [(3, 1), (4, 1)], 2⟩ = 2 ∧
     Pull ⟨4, [(3, 1), (4, 1)], 2⟩ 2 = some ([3, 4], ⟨4, [], 2⟩, 4) ∧
     BufferSize ⟨4, [], 2⟩ = 0) := by
  refine ⟨?_, ?_, by decide⟩
  · intro s hre g
    obtain ⟨i1, i2, i3, i4⟩ := sysInv_reach hre
    have hlen : s.store.events.length =
        s.store.eventsPushed - minCursor s.pullers s.store.eventsPushed := by
      rw [i4]; simp
    have hmcle := minCursor_le_dflt s.pullers s.store.eventsPushed
    unfold Retained
    constructor
    · rintro ⟨hg1, hg2⟩
      refine ⟨?_, hg2⟩
      have hmcg : minCursor s.pullers s.store.eventsPushed ≤ g := by omega
      rcases minCursor_attained s.pullers s.store.eventsPushed with h | h
      · exact absurd (h ▸ hmcg) (by omega)
      · exact ⟨_, h, hmcg⟩
    · rintro ⟨⟨cc, hcc, hccg⟩, hg2⟩
      refine ⟨?_, hg2⟩
      have := minCursor_le_mem s.pullers s.store.eventsPushed _ hcc
      omega
  · intro s hre
    obtain ⟨i1, i2, i3, i4⟩ := sysInv_reach hre
    show s.store.events.length = _
    rw [i4]; simp

theorem retained_iff_unread_witness :
    Retained ⟨⟨1, [(7, 0)], 1⟩, [0], [7]⟩ 0 ↔
      ((∃ cc ∈ ([0] : List Nat), cc ≤ 0) ∧ 0 < 1) :=
  retained_iff_unread.1 ⟨⟨1, [(7, 0)], 1⟩, [0], [7]⟩
    (ReachPre.publish 7 (ReachPre.newPuller ReachPre.init rfl)) 0

theorem flags_clear_after_pass_witness :
    (((notifyUpd subsChain targetsChain 20 0 stChainCached).getD TreeState.fresh).flag 0
        = false ∧
      ((notifyUpd subsChain targetsChain 20 0 stChainCached).getD TreeState.fresh).updated 0
        = false) ∧
    (((notifyUpd subsChain targetsChain 20 0 stChainCached).getD TreeState.fresh).flag 1
        = false ∧
      ((notifyUpd subsChain targetsChain 20 0 stChainCached).getD TreeState.fresh).updated 1
        = false) ∧
    (((notifyUpd subsChain targetsChain 20 0 stChainCached).getD TreeState.fresh).flag 2
        = false ∧
      ((notifyUpd subsChain targetsChain 20 0 stChainCached).getD TreeState.fresh).updated 2
        = false) := by
  have h := flags_clear_after_pass subsChain targetsChain 0 [0, 1, 2] 20 stChainCached
    ((notifyUpd subsChain targetsChain 20 0 stChainCached).getD TreeState.fresh)
    (by
      intro k
      unfold subsChain
      by_cases h0 : k = 0
      · subst h0; decide
      · by_cases h1 : k = 1
        · subst h1; decide
        · simp [h0, h1])
    (by
      intro n o hno
      by_cases hn : n = 0
      · subst hn
        have h2 : some [0, 1, 2] = some o := by
          have h3 : (if (0 : Nat) = 0 then some [0, 1, 2] else none) = some o := hno
          simpa using h3
        have h4 : [0, 1, 2] = o := Option.some.inj h2
        rw [← h4]
        exact ⟨by decide, by decide, by decide⟩
      · exact absurd hno (by simp [stChainCached, hn]))
    rfl (fun _ => rfl) rfl
  exact ⟨h 0 (by decide), h 1 (by decide), h 2 (by decide)⟩

end Shdep
